import Mathlib

set_option maxRecDepth 40000

/-!
Verification of the local-translator segmentation and render-orchestration
engine against its specification.

The development shallowly embeds the TypeScript sources:

* `src/lib/text-segmenter.ts` — `TextSegmenter.collectSegments`,
  `shouldStartNewSegment`, `getElementBoundaryInfo`, `findNonInlineParent`,
  `finalizeSegment`, `addContextToSegments`, `generateFingerprint`;
* `src/lib/dom-translator.ts` — the render pass `DomTranslator._render`
  (suspension-point structure, render-token staleness protocol, replace-mode
  text distribution), `DomTranslator.unregister` and `_restoreAll`;
* `src/lib/language-detector.ts` — `detectLanguage`, `isEnglish`,
  `filterEnglishSegments`.

Modelling conventions, fixed once here:

* JavaScript strings are modelled as sequences of Unicode code points
  (Lean `String`); `length`, `slice`, `charCodeAt` act on code points.
  UTF-16 surrogate-pair effects for astral-plane characters are outside
  the model.
* DOM nodes carry a numeric `id` standing for JavaScript reference
  identity; an element's computed style `display` is carried as a field
  (the source reads it via `window.getComputedStyle`).
* The segmenter's `fingerprintCache` is pure memoisation of
  `generateFingerprint` (every write stores the freshly computed hash of
  the key), so `generateFingerprint` is embedded as the pure function.
* Numbers that the source only ever uses as integers (confidence
  percentages, sizes, indices) are modelled as `Nat`/`Int` with explicit
  32-bit wrapping where the source relies on JavaScript bitwise overflow.
-/

/-! ## JavaScript string primitives -/

/-- The character class of the JavaScript `\s` regex escape and of
`String.prototype.trim`. -/
def jsWhitespaceChars : List Char :=
  [' ', '\t', '\n', '\r', '\x0b', '\x0c',
   '\u00A0', '\u1680', '\u2000', '\u2001', '\u2002', '\u2003', '\u2004',
   '\u2005', '\u2006', '\u2007', '\u2008', '\u2009', '\u200A', '\u2028',
   '\u2029', '\u202F', '\u205F', '\u3000', '\uFEFF']

def isJsWhitespace (c : Char) : Bool :=
  jsWhitespaceChars.contains c

/-- JavaScript `String.prototype.trim`. -/
def jsTrim (s : String) : String :=
  String.mk (((s.data.dropWhile isJsWhitespace).reverse.dropWhile isJsWhitespace).reverse)

/-- JavaScript `s.slice(0, n)` for `n ≥ 0`. -/
def jsTakeChars (s : String) (n : Nat) : String :=
  String.mk (s.data.take n)

/-- JavaScript `s.slice(-n)`: the last `n` characters, except that
`s.slice(-0)` is `s.slice(0)`, the whole string. -/
def jsSliceLastChars (s : String) (n : Nat) : String :=
  if n = 0 then s else String.mk (s.data.drop (s.data.length - n))

/-- JavaScript `s.slice(start, stop)` for `0 ≤ start ≤ stop` (slice clamps
out-of-range indices to the string length). -/
def jsSliceRange (s : String) (start stop : Nat) : String :=
  String.mk ((s.data.take stop).drop start)

/-- Wrap an integer into the signed 32-bit range, as JavaScript `| 0` /
`& -1` coercion (`ToInt32`) does. -/
def jsToInt32 (n : Int) : Int :=
  (n + 2 ^ 31) % 2 ^ 32 - 2 ^ 31

/-- One step of the segmenter's hash loop:
`hash = ((hash << 5) - hash) + char; hash = hash & hash`. The shift
operates on the 32-bit coercion of `hash`; the subtraction and addition are
exact; the final `& hash` wraps back to 32 bits. -/
def jsHashStep (h : Int) (c : Nat) : Int :=
  jsToInt32 (jsToInt32 (h * 32) - h + c)

/-- The hash loop of `TextSegmenter.generateFingerprint` over the
character codes of `text`. -/
def jsHash (s : String) : Int :=
  s.data.foldl (fun h c => jsHashStep h c.toNat) 0

/-- Digit character for `Number.prototype.toString(36)`: 0-9 then a-z. -/
def toBase36Digit (n : Nat) : Char :=
  if n < 10 then Char.ofNat (48 + n) else Char.ofNat (87 + n)

/-- Base-36 digit expansion. The structural fuel (32) exceeds the digit
count of any 32-bit value, so the fuel-exhaustion branch is unreachable on
the hash values the segmenter produces. -/
def natToBase36Core : Nat → Nat → List Char → List Char
  | 0, n, acc => toBase36Digit (n % 36) :: acc
  | fuel + 1, n, acc =>
    if n < 36 then toBase36Digit n :: acc
    else natToBase36Core fuel (n / 36) (toBase36Digit (n % 36) :: acc)

/-- JavaScript `n.toString(36)` for a non-negative integer. -/
def natToBase36 (n : Nat) : String :=
  String.mk (natToBase36Core 32 n [])

/-- `TextSegmenter.generateFingerprint` (text-segmenter.ts lines 265-279):
the 32-bit rolling hash of the text, then `Math.abs(hash).toString(36)`.
The `fingerprintCache` lookup is pure memoisation and is dropped. -/
def generateFingerprint (text : String) : String :=
  natToBase36 (jsHash text).natAbs

/-! ## Segmenter data model -/

/-- Options of `TextSegmenter`, with the defaults set in its constructor. -/
structure SegmentOptions where
  maxChunkSize : Nat
  minChunkSize : Nat
  preserveSentences : Bool
  preserveContext : Bool
  contextOverlap : Nat
  skipTags : List String
  inlineTags : List String
deriving DecidableEq, Repr

def defaultSegmentOptions : SegmentOptions :=
  { maxChunkSize := 1000
    minChunkSize := 50
    preserveSentences := true
    preserveContext := true
    contextOverlap := 100
    skipTags := ["style", "script", "noscript", "svg", "img", "video", "audio",
                 "textarea", "input", "button", "select", "option", "iframe",
                 "code", "pre"]
    inlineTags := ["a", "abbr", "acronym", "b", "bdi", "bdo", "big", "br", "cite",
                   "code", "data", "del", "dfn", "em", "i", "ins", "kbd", "mark",
                   "q", "s", "samp", "small", "span", "strong", "sub", "sup",
                   "time", "u", "var", "wbr"] }

/-- A DOM `Text` node: reference identity plus `textContent`. -/
structure TextNode where
  id : Nat
  content : String
deriving DecidableEq, Repr

/-- The element attributes the segmenter inspects: lower-cased tag name,
class list, `translate` attribute, `contentEditable`, and the computed
style `display` value. -/
structure ElemData where
  id : Nat
  tagName : String
  classes : List String
  translateAttr : Option String
  contentEditable : String
  display : String
deriving DecidableEq, Repr

mutual
/-- A DOM node. An element that has a shadow root is modelled as
`shadowHost` carrying the shadow root's children: the source walks the
shadow children instead of the light children in that case
(text-segmenter.ts lines 145-152), and light children of such a host are
never visited. -/
inductive DomNode : Type where
  | text : TextNode → DomNode
  | elem : ElemData → DomForest → DomNode
  | shadowHost : ElemData → DomForest → DomNode
/-- A sibling list of DOM nodes (`childNodes`). -/
inductive DomForest : Type where
  | nil : DomForest
  | cons : DomNode → DomForest → DomForest
end

deriving instance DecidableEq for DomNode
deriving instance DecidableEq for DomForest

/-- `ElementBoundaryInfo` of text-segmenter.ts. -/
structure ElementBoundaryInfo where
  isInline : Bool
  isSkipped : Bool
  isTranslatable : Bool
  computedDisplay : String
deriving DecidableEq, Repr

/-- `TextSegmenter.getElementBoundaryInfo` (lines 199-226): skip-tag
membership, then the `notranslate` class / `translate="no"` /
`contentEditable === "true"` opt-outs, then the inline classification from
computed `display` and the inline-tag allowlist. -/
def getElementBoundaryInfo (opts : SegmentOptions) (e : ElemData) : ElementBoundaryInfo :=
  if opts.skipTags.contains e.tagName then
    { isInline := false, isSkipped := true, isTranslatable := false, computedDisplay := "" }
  else if e.classes.contains "notranslate" || e.translateAttr == some "no" ||
      e.contentEditable == "true" then
    { isInline := false, isSkipped := true, isTranslatable := false, computedDisplay := "" }
  else
    let display := e.display
    let isInline := display == "inline" || display == "inline-block" ||
      display == "inline-flex" || opts.inlineTags.contains e.tagName
    { isInline := isInline, isSkipped := false, isTranslatable := true,
      computedDisplay := display }

/-- The upward scan of `TextSegmenter.findNonInlineParent`: first
non-inline element in the chain, if any. -/
def findNonInlineParentScan (opts : SegmentOptions) : List ElemData → Option ElemData
  | [] => none
  | c :: rest =>
    if (getElementBoundaryInfo opts c).isInline then findNonInlineParentScan opts rest
    else some c

/-- `TextSegmenter.findNonInlineParent` (lines 228-240): walk up from `e`
through its ancestors; return the first non-inline element, falling back
to `e` itself when the walk reaches the body without finding one.
`ancestors` is the parent chain of `e` within the walked root (the chain
above the root is not part of the model). -/
def findNonInlineParent (opts : SegmentOptions) (e : ElemData) (ancestors : List ElemData) : ElemData :=
  (findNonInlineParentScan opts (e :: ancestors)).getD e

/-- The test `/[.!?。！？]\s*$/.test(newContent)` in
`shouldStartNewSegment`: the string ends with sentence-final punctuation
followed by optional whitespace. -/
def sentenceEndRegexTest (s : String) : Bool :=
  match s.data.reverse.dropWhile isJsWhitespace with
  | [] => false
  | c :: _ => ['.', '!', '?', '。', '！', '？'].contains c

/-- `TextSegmenter.shouldStartNewSegment` (lines 181-197), transcribed
if-for-if from the source. -/
def shouldStartNewSegment (opts : SegmentOptions) (currentSize : Nat) (newContent : String) : Bool :=
  if currentSize = 0 then true
  else
    let totalSize := currentSize + newContent.length
    if totalSize > opts.maxChunkSize then
      if opts.preserveSentences then
        if sentenceEndRegexTest newContent || currentSize ≥ opts.maxChunkSize then true
        else false
      else true
    else false

/-- The in-progress accumulator (`state.currentSegment` before
finalisation). -/
structure PartialSegment where
  nodes : List TextNode
  text : String
  parentElement : ElemData
  topElement : Option ElemData
  bottomElement : Option ElemData
deriving DecidableEq, Repr

/-- A finalised `TextSegment`. The source's optional `context` object is
flattened into the two optional fields `contextBefore` / `contextAfter`. -/
structure TextSegment where
  nodes : List TextNode
  text : String
  parentElement : ElemData
  topElement : Option ElemData
  bottomElement : Option ElemData
  contextBefore : Option String
  contextAfter : Option String
  fingerprint : String
deriving DecidableEq, Repr

/-- `TextSegmenter.finalizeSegment` (lines 242-245): trim the accumulated
text and fingerprint the trimmed text. -/
def finalizeSegment (p : PartialSegment) : TextSegment :=
  let t := jsTrim p.text
  { nodes := p.nodes, text := t, parentElement := p.parentElement,
    topElement := p.topElement, bottomElement := p.bottomElement,
    contextBefore := none, contextAfter := none,
    fingerprint := generateFingerprint t }

/-- The mutable walk state of `collectSegments`: the emitted segments
array plus `state.currentSegment` / `state.currentSize`. -/
structure WalkState where
  segments : List TextSegment
  currentSegment : Option PartialSegment
  currentSize : Nat
deriving DecidableEq, Repr

def emptyWalkState : WalkState :=
  { segments := [], currentSegment := none, currentSize := 0 }

/-- The flush pattern repeated at lines 117-124, 128-135, 138-143, 154-159
and 169-172 of `collectSegments`: when an accumulator with at least one
node is open, finalise it, push it, and reset the accumulator. -/
def flushIfNodes (st : WalkState) : WalkState :=
  match st.currentSegment with
  | some cur =>
    if cur.nodes.isEmpty then st
    else { segments := st.segments ++ [finalizeSegment cur], currentSegment := none, currentSize := 0 }
  | none => st

/-- Recursive rendering of `TextSegmenter.addContextToSegments` (lines
247-263). The source's index loop reads only the (already final) `text`
fields of the neighbours and writes only the context fields, so it is
equivalent to this one-pass recursion threading the previous segment's
text. -/
def addContextScan (overlap : Nat) (preceding : Option String) : List TextSegment → List TextSegment
  | [] => []
  | s :: rest =>
    let s1 := match preceding with
      | some pt => { s with contextBefore := some (jsSliceLastChars pt overlap) }
      | none => s
    let s2 := match rest with
      | [] => s1
      | nxt :: _ => { s1 with contextAfter := some (jsTakeChars nxt.text overlap) }
    s2 :: addContextScan overlap (some s.text) rest

def addContextToSegments (opts : SegmentOptions) (segs : List TextSegment) : List TextSegment :=
  addContextScan opts.contextOverlap none segs

/-- The epilogue of `collectSegments` (lines 168-178): flush a remaining
accumulator, then stitch context when `preserveContext` is on. -/
def finishSegments (opts : SegmentOptions) (st : WalkState) : List TextSegment :=
  let segs := (flushIfNodes st).segments
  if opts.preserveContext then addContextToSegments opts segs else segs

mutual
/-- `processNode` inside `TextSegmenter.collectSegments` (lines 83-161).
`parent` is the `parentElement` argument, `ancestors` its parent chain
(for `findNonInlineParent`), `exclude` the exclusion set as element ids.
The shadow-root branch runs a fresh full `collectSegments` pass over the
shadow children — with NO exclude set, a fresh state, the host as root
element, and its own context pass — and appends the resulting segments to
the output array at the current position, exactly as
`segments.push(...this.collectSegments(element.shadowRoot))` does. -/
def processNode (opts : SegmentOptions) (exclude : List Nat) (parent : ElemData)
    (ancestors : List ElemData) (st : WalkState) : DomNode → WalkState
  | .text t =>
    let content := t.content
    if jsTrim content = "" then st
    else
      let st1 :=
        if st.currentSegment.isNone || shouldStartNewSegment opts st.currentSize content then
          { segments := st.segments ++
              (match st.currentSegment with
               | some cur => [finalizeSegment cur]
               | none => []),
            currentSegment := some
              { nodes := [], text := "",
                parentElement := findNonInlineParent opts parent ancestors,
                topElement := none, bottomElement := none },
            currentSize := 0 }
        else st
      match st1.currentSegment with
      | some cur =>
        { segments := st1.segments,
          currentSegment := some
            { nodes := cur.nodes ++ [t],
              text := cur.text ++ content,
              parentElement := cur.parentElement,
              topElement := some (cur.topElement.getD parent),
              bottomElement := some parent },
          currentSize := st1.currentSize + content.length }
      | none => st1
  | .elem e children =>
    if exclude.contains e.id then flushIfNodes st
    else
      let boundary := getElementBoundaryInfo opts e
      if boundary.isSkipped then flushIfNodes st
      else
        let st1 := if !boundary.isInline then flushIfNodes st else st
        let st2 := processForest opts exclude e (parent :: ancestors) st1 children
        if !boundary.isInline then flushIfNodes st2 else st2
  | .shadowHost e shadowChildren =>
    if exclude.contains e.id then flushIfNodes st
    else
      let boundary := getElementBoundaryInfo opts e
      if boundary.isSkipped then flushIfNodes st
      else
        let st1 := if !boundary.isInline then flushIfNodes st else st
        let innerSegs := finishSegments opts (processForest opts [] e [] emptyWalkState shadowChildren)
        let st2 := { st1 with segments := st1.segments ++ innerSegs }
        if !boundary.isInline then flushIfNodes st2 else st2
/-- The `for (const child of ...)` loops over sibling lists in
`collectSegments`. -/
def processForest (opts : SegmentOptions) (exclude : List Nat) (parent : ElemData)
    (ancestors : List ElemData) (st : WalkState) : DomForest → WalkState
  | .nil => st
  | .cons n rest =>
    processForest opts exclude parent ancestors (processNode opts exclude parent ancestors st n) rest
end

/-- `TextSegmenter.collectSegments` (lines 76-179) applied to a root
element: walk the root's children with the root itself as the initial
`parentElement`, flush the last accumulator, and run the context pass.
`segmentElement` without a cached entry and `segmentRoot` both reduce to
this. -/
def collectSegments (opts : SegmentOptions) (exclude : List Nat) (rootElem : ElemData)
    (children : DomForest) : List TextSegment :=
  finishSegments opts (processForest opts exclude rootElem [] emptyWalkState children)

/-! ## Concrete document fixtures -/

def exText (i : Nat) (s : String) : DomNode := .text ⟨i, s⟩

def exBlock (i : Nat) (tag : String) (cs : DomForest) : DomNode :=
  .elem ⟨i, tag, [], none, "inherit", "block"⟩ cs

def exInline (i : Nat) (tag : String) (cs : DomForest) : DomNode :=
  .elem ⟨i, tag, [], none, "inherit", "inline"⟩ cs

/-- The root paragraph of `<p>Hello <span>world</span>!</p>`. -/
def pRootData : ElemData := ⟨0, "p", [], none, "inherit", "block"⟩

def helloWorldChildren : DomForest :=
  .cons (exText 1 "Hello ")
    (.cons (exInline 2 "span" (.cons (exText 3 "world") .nil))
      (.cons (exText 4 "!") .nil))

/-- The root of `<div><p>A.</p><p>B.</p></div>`. -/
def divRootData : ElemData := ⟨0, "div", [], none, "inherit", "block"⟩

def twoParasChildren : DomForest :=
  .cons (exBlock 1 "p" (.cons (exText 2 "A.") .nil))
    (.cons (exBlock 3 "p" (.cons (exText 4 "B.") .nil)) .nil)

/-- C3. Block/inline segmentation on the two documents named by the spec:
`<p>Hello <span>world</span>!</p>` yields exactly one segment with text
`"Hello world!"` (the inline span continues the accumulator), and
`<div><p>A.</p><p>B.</p></div>` yields exactly the two segments `"A."`
and `"B."` in order (each `p` is a block boundary that finalises the
accumulator before and after its subtree). -/
theorem claim_C3_block_inline_segmentation :
    ((collectSegments defaultSegmentOptions [] pRootData helloWorldChildren).map
        fun s => s.text) = ["Hello world!"] ∧
    ((collectSegments defaultSegmentOptions [] divRootData twoParasChildren).map
        fun s => s.text) = ["A.", "B."] := by
  decide

/-- C5. The split condition for a non-whitespace text leaf.
First conjunct: `shouldStartNewSegment` holds exactly when the accumulator
is empty, or appending would exceed `maxChunkSize` and (sentence
preservation is off, or the new content ends a sentence, or the
accumulator already reached `maxChunkSize`).
Second conjunct: when the condition is false the leaf is appended to the
open accumulator (same emitted segments, extended node list and text).
Third conjunct: when the condition is true the open accumulator is
finalised (trimmed and fingerprinted by `finalizeSegment`) and a fresh
segment starts with exactly that leaf. -/
theorem claim_C5_accumulator_split :
    (∀ (opts : SegmentOptions) (currentSize : Nat) (newContent : String),
      shouldStartNewSegment opts currentSize newContent = true ↔
        (currentSize = 0 ∨
          (currentSize + newContent.length > opts.maxChunkSize ∧
            (opts.preserveSentences = false ∨ sentenceEndRegexTest newContent = true ∨
              opts.maxChunkSize ≤ currentSize)))) ∧
    (∀ (opts : SegmentOptions) (exclude : List Nat) (parent : ElemData)
        (ancestors : List ElemData) (st : WalkState) (t : TextNode) (cur : PartialSegment),
      jsTrim t.content ≠ "" →
      st.currentSegment = some cur →
      shouldStartNewSegment opts st.currentSize t.content = false →
      processNode opts exclude parent ancestors st (DomNode.text t) =
        { segments := st.segments,
          currentSegment := some
            { nodes := cur.nodes ++ [t], text := cur.text ++ t.content,
              parentElement := cur.parentElement,
              topElement := some (cur.topElement.getD parent),
              bottomElement := some parent },
          currentSize := st.currentSize + t.content.length }) ∧
    (∀ (opts : SegmentOptions) (exclude : List Nat) (parent : ElemData)
        (ancestors : List ElemData) (st : WalkState) (t : TextNode) (cur : PartialSegment),
      jsTrim t.content ≠ "" →
      st.currentSegment = some cur →
      shouldStartNewSegment opts st.currentSize t.content = true →
      processNode opts exclude parent ancestors st (DomNode.text t) =
        { segments := st.segments ++ [finalizeSegment cur],
          currentSegment := some
            { nodes := [t], text := t.content,
              parentElement := findNonInlineParent opts parent ancestors,
              topElement := some parent, bottomElement := some parent },
          currentSize := t.content.length }) := by
  refine ⟨?_, ?_, ?_⟩
  · intro opts currentSize newContent
    simp only [shouldStartNewSegment]
    split_ifs with h0 h1 h2 h3 <;> simp_all
  · intro opts exclude parent ancestors st t cur hne hcur hf
    obtain ⟨segs, curOpt, size⟩ := st
    simp only at hcur
    subst hcur
    simp only at hf
    simp [processNode, if_neg (by simpa using hne), hf]
  · intro opts exclude parent ancestors st t cur hne hcur ht
    obtain ⟨segs, curOpt, size⟩ := st
    simp only at hcur
    subst hcur
    simp only at ht
    simp [processNode, if_neg (by simpa using hne), ht]

def w5Cur : PartialSegment :=
  { nodes := [⟨1, "Hello "⟩], text := "Hello ", parentElement := pRootData,
    topElement := some pRootData, bottomElement := some pRootData }

def w5State : WalkState :=
  { segments := [], currentSegment := some w5Cur, currentSize := 6 }

theorem claim_C5_witness :
    jsTrim "world" ≠ "" ∧
    shouldStartNewSegment defaultSegmentOptions w5State.currentSize "world" = false ∧
    processNode defaultSegmentOptions [] pRootData [] w5State (DomNode.text ⟨2, "world"⟩) =
      { segments := w5State.segments,
        currentSegment := some
          { nodes := w5Cur.nodes ++ [⟨2, "world"⟩], text := w5Cur.text ++ "world",
            parentElement := w5Cur.parentElement,
            topElement := some (w5Cur.topElement.getD pRootData),
            bottomElement := some pRootData },
        currentSize := w5State.currentSize + "world".length } :=
  ⟨by decide, by decide,
    claim_C5_accumulator_split.2.1 defaultSegmentOptions [] pRootData [] w5State
      ⟨2, "world"⟩ w5Cur (by decide) rfl (by decide)⟩

/-! ## Leaf accounting for the walk -/

mutual
/-- All text leaves below a node, including those inside shadow roots. -/
def leavesUnderN : DomNode → List TextNode
  | .text t => [t]
  | .elem _ c => leavesUnderF c
  | .shadowHost _ sc => leavesUnderF sc
def leavesUnderF : DomForest → List TextNode
  | .nil => []
  | .cons n rest => leavesUnderN n ++ leavesUnderF rest
end

mutual
/-- The text leaves the walk of `collectSegments` can reach: pruned at
excluded elements and at skip-classified elements, with the exclude set
dropped when the walk enters a shadow root (the source calls
`this.collectSegments(element.shadowRoot)` with no second argument). -/
def collectableLeavesN (opts : SegmentOptions) (exclude : List Nat) : DomNode → List TextNode
  | .text t => [t]
  | .elem e c =>
    if exclude.contains e.id || (getElementBoundaryInfo opts e).isSkipped then []
    else collectableLeavesF opts exclude c
  | .shadowHost e sc =>
    if exclude.contains e.id || (getElementBoundaryInfo opts e).isSkipped then []
    else collectableLeavesF opts [] sc
def collectableLeavesF (opts : SegmentOptions) (exclude : List Nat) : DomForest → List TextNode
  | .nil => []
  | .cons n rest => collectableLeavesN opts exclude n ++ collectableLeavesF opts exclude rest
end

mutual
/-- Elements paired with their walked subtree, restricted to positions the
exclusion check can see: the walk tests `exclude.has(element)` only
outside shadow roots, so descendants of a shadow root are not listed
(only the shadow host itself is). -/
def elemSubtreesN : DomNode → List (ElemData × DomForest)
  | .text _ => []
  | .elem e c => (e, c) :: elemSubtreesF c
  | .shadowHost e sc => [(e, sc)]
def elemSubtreesF : DomForest → List (ElemData × DomForest)
  | .nil => []
  | .cons n rest => elemSubtreesN n ++ elemSubtreesF rest
end

mutual
/-- Every element paired with its walked subtree, shadow content
included (the skip classification applies at every level). -/
def allSubtreesN : DomNode → List (ElemData × DomForest)
  | .text _ => []
  | .elem e c => (e, c) :: allSubtreesF c
  | .shadowHost e sc => (e, sc) :: allSubtreesF sc
def allSubtreesF : DomForest → List (ElemData × DomForest)
  | .nil => []
  | .cons n rest => allSubtreesN n ++ allSubtreesF rest
end

/-- The text leaves referenced by a walk state: the leaves of the emitted
segments plus those of the open accumulator. -/
def stateLeaves (st : WalkState) : List TextNode :=
  (st.segments.map fun s => s.nodes).flatten ++
    (match st.currentSegment with
     | some cur => cur.nodes
     | none => [])

theorem stateLeaves_flushIfNodes (st : WalkState) (x : TextNode)
    (hx : x ∈ stateLeaves (flushIfNodes st)) : x ∈ stateLeaves st := by
  obtain ⟨segs, curOpt, size⟩ := st
  cases curOpt with
  | none => simpa [flushIfNodes] using hx
  | some cur =>
    by_cases he : cur.nodes.isEmpty = true
    · simpa [flushIfNodes, he] using hx
    · simp [flushIfNodes, he, stateLeaves, finalizeSegment] at hx ⊢
      tauto

theorem addContextScan_mem (overlap : Nat) (segs : List TextSegment) :
    ∀ (preceding : Option String) (s : TextSegment),
      s ∈ addContextScan overlap preceding segs →
      ∃ s0 ∈ segs, s.nodes = s0.nodes ∧ s.text = s0.text ∧ s.fingerprint = s0.fingerprint := by
  induction segs with
  | nil => intro pre s hs; simp [addContextScan] at hs
  | cons a rest ih =>
    intro pre s hs
    simp only [addContextScan] at hs
    rcases List.mem_cons.mp hs with h | h
    · subst h
      refine ⟨a, List.mem_cons_self a rest, ?_⟩
      rcases pre with _ | pt <;> rcases rest with _ | ⟨nxt, rest2⟩ <;> simp
    · obtain ⟨s0, hs0, hprops⟩ := ih (some a.text) s h
      exact ⟨s0, List.mem_cons_of_mem a hs0, hprops⟩

theorem stateLeaves_processNode_text (opts : SegmentOptions) (exclude : List Nat)
    (parent : ElemData) (ancestors : List ElemData) (st : WalkState) (t : TextNode) (x : TextNode)
    (hx : x ∈ stateLeaves (processNode opts exclude parent ancestors st (DomNode.text t))) :
    x ∈ stateLeaves st ∨ x = t := by
  obtain ⟨segs, curOpt, size⟩ := st
  cases curOpt with
  | none =>
    by_cases htr : jsTrim t.content = ""
    · simp only [processNode, if_pos htr] at hx
      exact Or.inl hx
    · simp [processNode, htr, stateLeaves] at hx ⊢
      aesop
  | some cur =>
    by_cases htr : jsTrim t.content = ""
    · simp only [processNode, if_pos htr] at hx
      exact Or.inl hx
    · by_cases hsn : shouldStartNewSegment opts size t.content = true
      · simp [processNode, htr, hsn, stateLeaves, finalizeSegment] at hx ⊢
        aesop
      · simp [processNode, htr, hsn, stateLeaves] at hx ⊢
        aesop

theorem finishSegments_nodes_mem (opts : SegmentOptions) (st : WalkState) (s : TextSegment)
    (x : TextNode) (hs : s ∈ finishSegments opts st) (hx : x ∈ s.nodes) :
    x ∈ stateLeaves st := by
  unfold finishSegments at hs
  apply stateLeaves_flushIfNodes
  by_cases hp : opts.preserveContext = true
  · rw [if_pos hp] at hs
    obtain ⟨s0, hs0, hn, _, _⟩ := addContextScan_mem opts.contextOverlap _ none s hs
    rw [hn] at hx
    exact List.mem_append.mpr (Or.inl (List.mem_flatten.mpr
      ⟨s0.nodes, List.mem_map.mpr ⟨s0, hs0, rfl⟩, hx⟩))
  · rw [if_neg hp] at hs
    exact List.mem_append.mpr (Or.inl (List.mem_flatten.mpr
      ⟨s.nodes, List.mem_map.mpr ⟨s, hs, rfl⟩, hx⟩))

mutual
theorem stateLeaves_processNode (opts : SegmentOptions) (exclude : List Nat) (parent : ElemData)
    (ancestors : List ElemData) (st : WalkState) (n : DomNode) (x : TextNode)
    (hx : x ∈ stateLeaves (processNode opts exclude parent ancestors st n)) :
    x ∈ stateLeaves st ∨ x ∈ collectableLeavesN opts exclude n := by
  cases n with
  | text t =>
    rcases stateLeaves_processNode_text opts exclude parent ancestors st t x hx with h | h
    · exact Or.inl h
    · exact Or.inr (by simp [collectableLeavesN, h])
  | elem e c =>
    simp only [processNode] at hx
    by_cases hex : exclude.contains e.id = true
    · simp only [hex, if_true] at hx
      exact Or.inl (stateLeaves_flushIfNodes _ _ hx)
    · simp only [hex, Bool.false_eq_true, if_false] at hx
      by_cases hsk : (getElementBoundaryInfo opts e).isSkipped = true
      · simp only [hsk, if_true] at hx
        exact Or.inl (stateLeaves_flushIfNodes _ _ hx)
      · simp only [hsk, Bool.false_eq_true, if_false] at hx
        by_cases hinl : (getElementBoundaryInfo opts e).isInline = true
        · simp only [hinl, Bool.not_true, Bool.false_eq_true, if_false] at hx
          rcases stateLeaves_processForest opts exclude e (parent :: ancestors) st c x hx with h | h
          · exact Or.inl h
          · exact Or.inr (by simp [collectableLeavesN, hex, hsk]; exact ⟨by simpa using hex, h⟩)
        · simp only [Bool.not_eq_true] at hinl
          simp only [hinl, Bool.not_false, if_true] at hx
          have h1 := stateLeaves_flushIfNodes _ _ hx
          rcases stateLeaves_processForest opts exclude e (parent :: ancestors)
              (flushIfNodes st) c x h1 with h | h
          · exact Or.inl (stateLeaves_flushIfNodes _ _ h)
          · exact Or.inr (by simp [collectableLeavesN, hex, hsk]; exact ⟨by simpa using hex, h⟩)
  | shadowHost e sc =>
    simp only [processNode] at hx
    by_cases hex : exclude.contains e.id = true
    · simp only [hex, if_true] at hx
      exact Or.inl (stateLeaves_flushIfNodes _ _ hx)
    · simp only [hex, Bool.false_eq_true, if_false] at hx
      by_cases hsk : (getElementBoundaryInfo opts e).isSkipped = true
      · simp only [hsk, if_true] at hx
        exact Or.inl (stateLeaves_flushIfNodes _ _ hx)
      · simp only [hsk, Bool.false_eq_true, if_false] at hx
        have key : ∀ st1 : WalkState,
            x ∈ stateLeaves
              { st1 with segments := st1.segments ++
                  finishSegments opts (processForest opts [] e [] emptyWalkState sc) } →
            x ∈ stateLeaves st1 ∨ x ∈ collectableLeavesN opts exclude (DomNode.shadowHost e sc) := by
          intro st1 hmem
          obtain ⟨segs1, cur1, size1⟩ := st1
          simp only [stateLeaves, List.map_append, List.flatten_append, List.mem_append] at hmem
          rcases hmem with (h | h) | h
          · exact Or.inl (List.mem_append.mpr (Or.inl h))
          · obtain ⟨ns, hns, hxn⟩ := List.mem_flatten.mp h
            obtain ⟨s0, hs0, rfl⟩ := List.mem_map.mp hns
            have hstate := finishSegments_nodes_mem opts _ s0 x hs0 hxn
            rcases stateLeaves_processForest opts [] e [] emptyWalkState sc x hstate with h2 | h2
            · simp [stateLeaves, emptyWalkState] at h2
            · exact Or.inr (by simp [collectableLeavesN, hex, hsk]; exact ⟨by simpa using hex, h2⟩)
          · exact Or.inl (List.mem_append.mpr (Or.inr h))
        by_cases hinl : (getElementBoundaryInfo opts e).isInline = true
        · simp only [hinl, Bool.not_true, Bool.false_eq_true, if_false] at hx
          exact key st hx
        · simp only [Bool.not_eq_true] at hinl
          simp only [hinl, Bool.not_false, if_true] at hx
          have h1 := stateLeaves_flushIfNodes _ _ hx
          rcases key (flushIfNodes st) h1 with h | h
          · exact Or.inl (stateLeaves_flushIfNodes _ _ h)
          · exact Or.inr h
theorem stateLeaves_processForest (opts : SegmentOptions) (exclude : List Nat) (parent : ElemData)
    (ancestors : List ElemData) (st : WalkState) (d : DomForest) (x : TextNode)
    (hx : x ∈ stateLeaves (processForest opts exclude parent ancestors st d)) :
    x ∈ stateLeaves st ∨ x ∈ collectableLeavesF opts exclude d := by
  cases d with
  | nil => exact Or.inl hx
  | cons n rest =>
    simp only [processForest] at hx
    rcases stateLeaves_processForest opts exclude parent ancestors
        (processNode opts exclude parent ancestors st n) rest x hx with h | h
    · rcases stateLeaves_processNode opts exclude parent ancestors st n x h with h2 | h2
      · exact Or.inl h2
      · exact Or.inr (by simp [collectableLeavesF]; exact Or.inl h2)
    · exact Or.inr (by simp [collectableLeavesF]; exact Or.inr h)
end

theorem collect_nodes_subset (opts : SegmentOptions) (exclude : List Nat) (rootElem : ElemData)
    (children : DomForest) (seg : TextSegment) (x : TextNode)
    (hseg : seg ∈ collectSegments opts exclude rootElem children) (hx : x ∈ seg.nodes) :
    x ∈ collectableLeavesF opts exclude children := by
  unfold collectSegments at hseg
  have h := finishSegments_nodes_mem opts _ seg x hseg hx
  rcases stateLeaves_processForest opts exclude rootElem [] emptyWalkState children x h with h2 | h2
  · simp [stateLeaves, emptyWalkState] at h2
  · exact h2

mutual
theorem collectable_sub_leavesN (opts : SegmentOptions) (exclude : List Nat) (n : DomNode)
    (x : TextNode) (hx : x ∈ collectableLeavesN opts exclude n) : x ∈ leavesUnderN n := by
  cases n with
  | text t => simpa [collectableLeavesN, leavesUnderN] using hx
  | elem e c =>
    simp only [collectableLeavesN] at hx
    by_cases hc : (exclude.contains e.id || (getElementBoundaryInfo opts e).isSkipped) = true
    · rw [if_pos hc] at hx
      exact absurd hx (List.not_mem_nil x)
    · rw [if_neg hc] at hx
      simpa [leavesUnderN] using collectable_sub_leavesF opts exclude c x hx
  | shadowHost e sc =>
    simp only [collectableLeavesN] at hx
    by_cases hc : (exclude.contains e.id || (getElementBoundaryInfo opts e).isSkipped) = true
    · rw [if_pos hc] at hx
      exact absurd hx (List.not_mem_nil x)
    · rw [if_neg hc] at hx
      simpa [leavesUnderN] using collectable_sub_leavesF opts [] sc x hx
theorem collectable_sub_leavesF (opts : SegmentOptions) (exclude : List Nat) (d : DomForest)
    (x : TextNode) (hx : x ∈ collectableLeavesF opts exclude d) : x ∈ leavesUnderF d := by
  cases d with
  | nil => simp [collectableLeavesF] at hx
  | cons n rest =>
    simp only [collectableLeavesF, List.mem_append] at hx
    simp only [leavesUnderF, List.mem_append]
    rcases hx with h | h
    · exact Or.inl (collectable_sub_leavesN opts exclude n x h)
    · exact Or.inr (collectable_sub_leavesF opts exclude rest x h)
end

mutual
theorem elemSubtrees_sub_allN (n : DomNode) (p : ElemData × DomForest)
    (h : p ∈ elemSubtreesN n) : p ∈ allSubtreesN n := by
  cases n with
  | text t => simp [elemSubtreesN] at h
  | elem e c =>
    simp only [elemSubtreesN] at h
    simp only [allSubtreesN]
    rcases List.mem_cons.mp h with h2 | h2
    · exact h2 ▸ List.mem_cons_self _ _
    · exact List.mem_cons_of_mem _ (elemSubtrees_sub_allF c p h2)
  | shadowHost e sc =>
    simp only [elemSubtreesN] at h
    simp only [allSubtreesN]
    rcases List.mem_cons.mp h with h2 | h2
    · exact h2 ▸ List.mem_cons_self _ _
    · simp at h2
theorem elemSubtrees_sub_allF (d : DomForest) (p : ElemData × DomForest)
    (h : p ∈ elemSubtreesF d) : p ∈ allSubtreesF d := by
  cases d with
  | nil => simp [elemSubtreesF] at h
  | cons n rest =>
    simp only [elemSubtreesF, List.mem_append] at h
    simp only [allSubtreesF, List.mem_append]
    rcases h with h | h
    · exact Or.inl (elemSubtrees_sub_allN n p h)
    · exact Or.inr (elemSubtrees_sub_allF rest p h)
end

mutual
theorem subtree_leaves_subN (n : DomNode) (e : ElemData) (sub : DomForest) (x : TextNode)
    (hmem : (e, sub) ∈ allSubtreesN n) (hx : x ∈ leavesUnderF sub) : x ∈ leavesUnderN n := by
  cases n with
  | text t => simp [allSubtreesN] at hmem
  | elem f c =>
    simp only [allSubtreesN] at hmem
    simp only [leavesUnderN]
    rcases List.mem_cons.mp hmem with h2 | h2
    · obtain ⟨rfl, rfl⟩ := Prod.mk.injEq .. ▸ And.intro (congrArg Prod.fst h2) (congrArg Prod.snd h2)
      exact hx
    · exact subtree_leaves_subF c e sub x h2 hx
  | shadowHost f sc =>
    simp only [allSubtreesN] at hmem
    simp only [leavesUnderN]
    rcases List.mem_cons.mp hmem with h2 | h2
    · obtain ⟨rfl, rfl⟩ := Prod.mk.injEq .. ▸ And.intro (congrArg Prod.fst h2) (congrArg Prod.snd h2)
      exact hx
    · exact subtree_leaves_subF sc e sub x h2 hx
theorem subtree_leaves_subF (d : DomForest) (e : ElemData) (sub : DomForest) (x : TextNode)
    (hmem : (e, sub) ∈ allSubtreesF d) (hx : x ∈ leavesUnderF sub) : x ∈ leavesUnderF d := by
  cases d with
  | nil => simp [allSubtreesF] at hmem
  | cons n rest =>
    simp only [allSubtreesF, List.mem_append] at hmem
    simp only [leavesUnderF, List.mem_append]
    rcases hmem with h | h
    · exact Or.inl (subtree_leaves_subN n e sub x h hx)
    · exact Or.inr (subtree_leaves_subF rest e sub x h hx)
end

theorem id_mem_of_mem_map_sub {l1 l2 : List TextNode} (i : Nat)
    (hsub : ∀ y ∈ l1, y ∈ l2) (h : i ∈ l1.map TextNode.id) : i ∈ l2.map TextNode.id := by
  obtain ⟨y, hy, rfl⟩ := List.mem_map.mp h
  exact List.mem_map.mpr ⟨y, hsub y hy, rfl⟩

mutual
theorem excluded_id_not_collectableN (opts : SegmentOptions) (exclude : List Nat) (n : DomNode)
    (e : ElemData) (sub : DomForest) (x : TextNode)
    (hnd : ((leavesUnderN n).map TextNode.id).Nodup)
    (hmem : (e, sub) ∈ elemSubtreesN n)
    (hex : exclude.contains e.id = true)
    (hx : x ∈ leavesUnderF sub) :
    x.id ∉ (collectableLeavesN opts exclude n).map TextNode.id := by
  cases n with
  | text t => simp [elemSubtreesN] at hmem
  | elem f c =>
    simp only [elemSubtreesN] at hmem
    rcases List.mem_cons.mp hmem with h2 | h2
    · have hef : e = f := congrArg Prod.fst h2
      have hc : (exclude.contains f.id || (getElementBoundaryInfo opts f).isSkipped) = true := by
        rw [← hef]
        exact Bool.or_eq_true _ _ |>.mpr (Or.inl hex)
      simp only [collectableLeavesN, if_pos hc]
      simp
    · by_cases hc : (exclude.contains f.id || (getElementBoundaryInfo opts f).isSkipped) = true
      · simp only [collectableLeavesN, if_pos hc]
        simp
      · simp only [collectableLeavesN, if_neg hc]
        have hnd2 : ((leavesUnderF c).map TextNode.id).Nodup := by
          simpa [leavesUnderN] using hnd
        exact excluded_id_not_collectableF opts exclude c e sub x hnd2 h2 hex hx
  | shadowHost f sc =>
    simp only [elemSubtreesN] at hmem
    rcases List.mem_cons.mp hmem with h2 | h2
    · have hef : e = f := congrArg Prod.fst h2
      have hc : (exclude.contains f.id || (getElementBoundaryInfo opts f).isSkipped) = true := by
        rw [← hef]
        exact Bool.or_eq_true _ _ |>.mpr (Or.inl hex)
      simp only [collectableLeavesN, if_pos hc]
      simp
    · simp at h2
theorem excluded_id_not_collectableF (opts : SegmentOptions) (exclude : List Nat) (d : DomForest)
    (e : ElemData) (sub : DomForest) (x : TextNode)
    (hnd : ((leavesUnderF d).map TextNode.id).Nodup)
    (hmem : (e, sub) ∈ elemSubtreesF d)
    (hex : exclude.contains e.id = true)
    (hx : x ∈ leavesUnderF sub) :
    x.id ∉ (collectableLeavesF opts exclude d).map TextNode.id := by
  cases d with
  | nil => simp [elemSubtreesF] at hmem
  | cons n rest =>
    have hnd' : ((leavesUnderN n).map TextNode.id).Nodup ∧
        ((leavesUnderF rest).map TextNode.id).Nodup ∧
        ∀ i ∈ (leavesUnderN n).map TextNode.id, i ∉ (leavesUnderF rest).map TextNode.id := by
      have := hnd
      simp only [leavesUnderF, List.map_append] at this
      rw [List.nodup_append] at this
      exact ⟨this.1, this.2.1, fun i hi => this.2.2 hi⟩
    simp only [elemSubtreesF, List.mem_append] at hmem
    simp only [collectableLeavesF, List.map_append, List.mem_append]
    rcases hmem with h | h
    · intro hcontra
      rcases hcontra with hin | hin
      · exact excluded_id_not_collectableN opts exclude n e sub x hnd'.1 h hex hx hin
      · have hxn : x ∈ leavesUnderN n :=
          subtree_leaves_subN n e sub x (elemSubtrees_sub_allN n (e, sub) h) hx
        have h1 : x.id ∈ (leavesUnderN n).map TextNode.id := List.mem_map.mpr ⟨x, hxn, rfl⟩
        have h2 : x.id ∈ (leavesUnderF rest).map TextNode.id :=
          id_mem_of_mem_map_sub x.id (fun y hy => collectable_sub_leavesF opts exclude rest y hy) hin
        exact hnd'.2.2 x.id h1 h2
    · intro hcontra
      rcases hcontra with hin | hin
      · have hxr : x ∈ leavesUnderF rest :=
          subtree_leaves_subF rest e sub x (elemSubtrees_sub_allF rest (e, sub) h) hx
        have h1 : x.id ∈ (leavesUnderF rest).map TextNode.id := List.mem_map.mpr ⟨x, hxr, rfl⟩
        have h2 : x.id ∈ (leavesUnderN n).map TextNode.id :=
          id_mem_of_mem_map_sub x.id (fun y hy => collectable_sub_leavesN opts exclude n y hy) hin
        exact hnd'.2.2 x.id h2 h1
      · exact excluded_id_not_collectableF opts exclude rest e sub x hnd'.2.1 h hex hx hin
end

mutual
theorem skipped_id_not_collectableN (opts : SegmentOptions) (exclude : List Nat) (n : DomNode)
    (e : ElemData) (sub : DomForest) (x : TextNode)
    (hnd : ((leavesUnderN n).map TextNode.id).Nodup)
    (hmem : (e, sub) ∈ allSubtreesN n)
    (hsk : (getElementBoundaryInfo opts e).isSkipped = true)
    (hx : x ∈ leavesUnderF sub) :
    x.id ∉ (collectableLeavesN opts exclude n).map TextNode.id := by
  cases n with
  | text t => simp [allSubtreesN] at hmem
  | elem f c =>
    simp only [allSubtreesN] at hmem
    rcases List.mem_cons.mp hmem with h2 | h2
    · have hef : e = f := congrArg Prod.fst h2
      have hc : (exclude.contains f.id || (getElementBoundaryInfo opts f).isSkipped) = true := by
        rw [← hef]
        exact Bool.or_eq_true _ _ |>.mpr (Or.inr hsk)
      simp only [collectableLeavesN, if_pos hc]
      simp
    · by_cases hc : (exclude.contains f.id || (getElementBoundaryInfo opts f).isSkipped) = true
      · simp only [collectableLeavesN, if_pos hc]
        simp
      · simp only [collectableLeavesN, if_neg hc]
        have hnd2 : ((leavesUnderF c).map TextNode.id).Nodup := by
          simpa [leavesUnderN] using hnd
        exact skipped_id_not_collectableF opts exclude c e sub x hnd2 h2 hsk hx
  | shadowHost f sc =>
    simp only [allSubtreesN] at hmem
    rcases List.mem_cons.mp hmem with h2 | h2
    · have hef : e = f := congrArg Prod.fst h2
      have hc : (exclude.contains f.id || (getElementBoundaryInfo opts f).isSkipped) = true := by
        rw [← hef]
        exact Bool.or_eq_true _ _ |>.mpr (Or.inr hsk)
      simp only [collectableLeavesN, if_pos hc]
      simp
    · by_cases hc : (exclude.contains f.id || (getElementBoundaryInfo opts f).isSkipped) = true
      · simp only [collectableLeavesN, if_pos hc]
        simp
      · simp only [collectableLeavesN, if_neg hc]
        have hnd2 : ((leavesUnderF sc).map TextNode.id).Nodup := by
          simpa [leavesUnderN] using hnd
        exact skipped_id_not_collectableF opts [] sc e sub x hnd2 h2 hsk hx
theorem skipped_id_not_collectableF (opts : SegmentOptions) (exclude : List Nat) (d : DomForest)
    (e : ElemData) (sub : DomForest) (x : TextNode)
    (hnd : ((leavesUnderF d).map TextNode.id).Nodup)
    (hmem : (e, sub) ∈ allSubtreesF d)
    (hsk : (getElementBoundaryInfo opts e).isSkipped = true)
    (hx : x ∈ leavesUnderF sub) :
    x.id ∉ (collectableLeavesF opts exclude d).map TextNode.id := by
  cases d with
  | nil => simp [allSubtreesF] at hmem
  | cons n rest =>
    have hnd' : ((leavesUnderN n).map TextNode.id).Nodup ∧
        ((leavesUnderF rest).map TextNode.id).Nodup ∧
        ∀ i ∈ (leavesUnderN n).map TextNode.id, i ∉ (leavesUnderF rest).map TextNode.id := by
      have := hnd
      simp only [leavesUnderF, List.map_append] at this
      rw [List.nodup_append] at this
      exact ⟨this.1, this.2.1, fun i hi => this.2.2 hi⟩
    simp only [allSubtreesF, List.mem_append] at hmem
    simp only [collectableLeavesF, List.map_append, List.mem_append]
    rcases hmem with h | h
    · intro hcontra
      rcases hcontra with hin | hin
      · exact skipped_id_not_collectableN opts exclude n e sub x hnd'.1 h hsk hx hin
      · have hxn : x ∈ leavesUnderN n := subtree_leaves_subN n e sub x h hx
        have h1 : x.id ∈ (leavesUnderN n).map TextNode.id := List.mem_map.mpr ⟨x, hxn, rfl⟩
        have h2 : x.id ∈ (leavesUnderF rest).map TextNode.id :=
          id_mem_of_mem_map_sub x.id (fun y hy => collectable_sub_leavesF opts exclude rest y hy) hin
        exact hnd'.2.2 x.id h1 h2
    · intro hcontra
      rcases hcontra with hin | hin
      · have hxr : x ∈ leavesUnderF rest := subtree_leaves_subF rest e sub x h hx
        have h1 : x.id ∈ (leavesUnderF rest).map TextNode.id := List.mem_map.mpr ⟨x, hxr, rfl⟩
        have h2 : x.id ∈ (leavesUnderN n).map TextNode.id :=
          id_mem_of_mem_map_sub x.id (fun y hy => collectable_sub_leavesN opts exclude n y hy) hin
        exact hnd'.2.2 x.id h2 h1
      · exact skipped_id_not_collectableF opts exclude rest e sub x hnd'.2.1 h hsk hx hin
end

def fpOk (s : TextSegment) : Prop := s.fingerprint = generateFingerprint s.text

theorem fpOk_finalizeSegment (p : PartialSegment) : fpOk (finalizeSegment p) := rfl

theorem fpOk_flushIfNodes (st : WalkState) (hok : ∀ s ∈ st.segments, fpOk s) :
    ∀ s ∈ (flushIfNodes st).segments, fpOk s := by
  intro s hs
  obtain ⟨segs, curOpt, size⟩ := st
  cases curOpt with
  | none => exact hok s (by simpa [flushIfNodes] using hs)
  | some cur =>
    by_cases he : cur.nodes.isEmpty = true
    · exact hok s (by simpa [flushIfNodes, he] using hs)
    · simp only [flushIfNodes, he, Bool.false_eq_true, if_false, List.mem_append] at hs
      rcases hs with h | h
      · exact hok s h
      · simp only [List.mem_singleton] at h
        exact h ▸ fpOk_finalizeSegment cur

theorem fpOk_finishSegments (opts : SegmentOptions) (st : WalkState)
    (hok : ∀ s ∈ st.segments, fpOk s) : ∀ s ∈ finishSegments opts st, fpOk s := by
  intro s hs
  unfold finishSegments at hs
  by_cases hp : opts.preserveContext = true
  · rw [if_pos hp] at hs
    obtain ⟨s0, hs0, _, ht, hf⟩ := addContextScan_mem opts.contextOverlap _ none s hs
    have := fpOk_flushIfNodes st hok s0 hs0
    unfold fpOk at this ⊢
    rw [hf, ht, this]
  · rw [if_neg hp] at hs
    exact fpOk_flushIfNodes st hok s hs

theorem fpOk_processNode_text (opts : SegmentOptions) (exclude : List Nat) (parent : ElemData)
    (ancestors : List ElemData) (st : WalkState) (t : TextNode)
    (hok : ∀ s ∈ st.segments, fpOk s) :
    ∀ s ∈ (processNode opts exclude parent ancestors st (DomNode.text t)).segments, fpOk s := by
  intro s hs
  obtain ⟨segs, curOpt, size⟩ := st
  cases curOpt with
  | none =>
    by_cases htr : jsTrim t.content = ""
    · exact hok s (by simpa [processNode, htr] using hs)
    · simp only [processNode, if_neg htr] at hs
      simp at hs
      exact hok s hs
  | some cur =>
    by_cases htr : jsTrim t.content = ""
    · exact hok s (by simpa [processNode, htr] using hs)
    · by_cases hsn : shouldStartNewSegment opts size t.content = true
      · simp only [processNode, if_neg htr] at hs
        simp [hsn] at hs
        rcases hs with h | h
        · exact hok s h
        · exact h ▸ fpOk_finalizeSegment cur
      · simp only [processNode, if_neg htr] at hs
        simp [hsn] at hs
        exact hok s hs

mutual
theorem fpOk_processNode (opts : SegmentOptions) (exclude : List Nat) (parent : ElemData)
    (ancestors : List ElemData) (st : WalkState) (n : DomNode)
    (hok : ∀ s ∈ st.segments, fpOk s) :
    ∀ s ∈ (processNode opts exclude parent ancestors st n).segments, fpOk s := by
  cases n with
  | text t => exact fpOk_processNode_text opts exclude parent ancestors st t hok
  | elem e c =>
    intro s hs
    simp only [processNode] at hs
    by_cases hex : exclude.contains e.id = true
    · rw [if_pos hex] at hs
      exact fpOk_flushIfNodes st hok s hs
    · rw [if_neg hex] at hs
      by_cases hsk : (getElementBoundaryInfo opts e).isSkipped = true
      · rw [if_pos hsk] at hs
        exact fpOk_flushIfNodes st hok s hs
      · rw [if_neg hsk] at hs
        by_cases hinl : (getElementBoundaryInfo opts e).isInline = true
        · simp only [hinl, Bool.not_true, Bool.false_eq_true, if_false] at hs
          exact fpOk_processForest opts exclude e (parent :: ancestors) st c hok s hs
        · simp only [Bool.not_eq_true] at hinl
          simp only [hinl, Bool.not_false, if_true] at hs
          exact fpOk_flushIfNodes _
            (fpOk_processForest opts exclude e (parent :: ancestors) (flushIfNodes st) c
              (fpOk_flushIfNodes st hok)) s hs
  | shadowHost e sc =>
    intro s hs
    simp only [processNode] at hs
    by_cases hex : exclude.contains e.id = true
    · rw [if_pos hex] at hs
      exact fpOk_flushIfNodes st hok s hs
    · rw [if_neg hex] at hs
      by_cases hsk : (getElementBoundaryInfo opts e).isSkipped = true
      · rw [if_pos hsk] at hs
        exact fpOk_flushIfNodes st hok s hs
      · rw [if_neg hsk] at hs
        have hinner : ∀ s2 ∈ finishSegments opts
            (processForest opts [] e [] emptyWalkState sc), fpOk s2 :=
          fpOk_finishSegments opts _
            (fpOk_processForest opts [] e [] emptyWalkState sc (by simp [emptyWalkState]))
        have key : ∀ st1 : WalkState, (∀ s2 ∈ st1.segments, fpOk s2) →
            ∀ s2 ∈ (WalkState.mk (st1.segments ++
              finishSegments opts (processForest opts [] e [] emptyWalkState sc))
              st1.currentSegment st1.currentSize).segments, fpOk s2 := by
          intro st1 h1 s2 hs2
          simp only [List.mem_append] at hs2
          rcases hs2 with h | h
          · exact h1 s2 h
          · exact hinner s2 h
        by_cases hinl : (getElementBoundaryInfo opts e).isInline = true
        · simp only [hinl, Bool.not_true, Bool.false_eq_true, if_false] at hs
          exact key st hok s hs
        · simp only [Bool.not_eq_true] at hinl
          simp only [hinl, Bool.not_false, if_true] at hs
          exact fpOk_flushIfNodes _ (key (flushIfNodes st) (fpOk_flushIfNodes st hok)) s hs
theorem fpOk_processForest (opts : SegmentOptions) (exclude : List Nat) (parent : ElemData)
    (ancestors : List ElemData) (st : WalkState) (d : DomForest)
    (hok : ∀ s ∈ st.segments, fpOk s) :
    ∀ s ∈ (processForest opts exclude parent ancestors st d).segments, fpOk s := by
  cases d with
  | nil => exact hok
  | cons n rest =>
    intro s hs
    simp only [processForest] at hs
    exact fpOk_processForest opts exclude parent ancestors
      (processNode opts exclude parent ancestors st n) rest
      (fpOk_processNode opts exclude parent ancestors st n hok) s hs
end

theorem collectSegments_fpOk (opts : SegmentOptions) (exclude : List Nat) (rootElem : ElemData)
    (children : DomForest) : ∀ s ∈ collectSegments opts exclude rootElem children, fpOk s :=
  fpOk_finishSegments opts _
    (fpOk_processForest opts exclude rootElem [] emptyWalkState children (by simp [emptyWalkState]))

/-! ## Claims C4 and C6 -/

def shadowLeakHostData : ElemData := ⟨1, "x-host", [], none, "inherit", "block"⟩

def shadowLeakExcludedData : ElemData := ⟨7, "div", [], none, "inherit", "block"⟩

def shadowLeakSub : DomForest := .cons (exText 5 "secret") .nil

def shadowLeakChildren : DomForest :=
  .cons (DomNode.shadowHost shadowLeakHostData
    (.cons (.elem shadowLeakExcludedData shadowLeakSub) .nil)) .nil

/-- C4, counterexample. The claim quantifies over every root and every
exclude set, but the shadow-root recursion of `collectSegments` (line 146)
calls `this.collectSegments(element.shadowRoot)` WITHOUT forwarding the
exclude set. Concretely: the element with id 7 is in the exclude set and
lives inside a shadow root; its leaf text `"secret"` nevertheless ends up
as a produced segment (text and node list shown), refuting the claim as
stated. -/
theorem claim_C4_counterexample :
    shadowLeakExcludedData.id ∈ ([7] : List Nat) ∧
    (shadowLeakExcludedData, shadowLeakSub) ∈ allSubtreesF shadowLeakChildren ∧
    (⟨5, "secret"⟩ : TextNode) ∈ leavesUnderF shadowLeakSub ∧
    ((collectSegments defaultSegmentOptions [7] divRootData shadowLeakChildren).map
      fun s => s.text) = ["secret"] ∧
    ((collectSegments defaultSegmentOptions [7] divRootData shadowLeakChildren).map
      fun s => s.nodes) = [[⟨5, "secret"⟩]] := by
  decide

/-- C4, amended. First conjunct: for every root, exclude set and leaf
with distinct leaf identities, no leaf under an excluded element that the
walk's exclusion check can see (i.e. not inside a nested shadow root:
`elemSubtreesF`), and no leaf under a skip-classified element anywhere
(shadow content included: `allSubtreesF`), occurs in any produced
segment's node list. Second conjunct: encountering an excluded or
skip-classified element forcibly finalises any open accumulator and skips
the subtree — the walk step is exactly `flushIfNodes` with no recursion.
The amendment restricts the original claim's exclude-set half to elements
outside shadow roots, as forced by `claim_C4_counterexample`. -/
theorem claim_C4_exclusion_amended :
    (∀ (opts : SegmentOptions) (exclude : List Nat) (rootElem : ElemData) (children : DomForest)
        (e : ElemData) (sub : DomForest) (x : TextNode) (seg : TextSegment),
      ((leavesUnderF children).map TextNode.id).Nodup →
      (((e, sub) ∈ elemSubtreesF children ∧ exclude.contains e.id = true) ∨
        ((e, sub) ∈ allSubtreesF children ∧ (getElementBoundaryInfo opts e).isSkipped = true)) →
      x ∈ leavesUnderF sub →
      seg ∈ collectSegments opts exclude rootElem children →
      x ∉ seg.nodes) ∧
    (∀ (opts : SegmentOptions) (exclude : List Nat) (parent : ElemData) (ancestors : List ElemData)
        (st : WalkState) (e : ElemData) (children : DomForest),
      exclude.contains e.id = true ∨ (getElementBoundaryInfo opts e).isSkipped = true →
      processNode opts exclude parent ancestors st (DomNode.elem e children) = flushIfNodes st ∧
      processNode opts exclude parent ancestors st (DomNode.shadowHost e children) = flushIfNodes st) := by
  constructor
  · intro opts exclude rootElem children e sub x seg hnd hmem hx hseg hcontra
    have hcol := collect_nodes_subset opts exclude rootElem children seg x hseg hcontra
    have hid : x.id ∈ (collectableLeavesF opts exclude children).map TextNode.id :=
      List.mem_map.mpr ⟨x, hcol, rfl⟩
    rcases hmem with ⟨hm, hex⟩ | ⟨hm, hsk⟩
    · exact excluded_id_not_collectableF opts exclude children e sub x hnd hm hex hx hid
    · exact skipped_id_not_collectableF opts exclude children e sub x hnd hm hsk hx hid
  · intro opts exclude parent ancestors st e children hcond
    constructor <;>
    · simp only [processNode]
      rcases hcond with hex | hsk
      · rw [if_pos hex]
      · by_cases hex2 : exclude.contains e.id = true
        · rw [if_pos hex2]
        · rw [if_neg hex2, if_pos hsk]

def wC4ParaData : ElemData := ⟨1, "p", [], none, "inherit", "block"⟩

def wC4SkipData : ElemData := ⟨3, "code", [], none, "inherit", "block"⟩

def wC4SkipSub : DomForest := .cons (exText 4 "NO") .nil

def wC4Children : DomForest :=
  .cons (.elem wC4ParaData (.cons (exText 2 "Visible") .nil))
    (.cons (.elem wC4SkipData wC4SkipSub) .nil)

def wC4Seg : TextSegment :=
  { nodes := [⟨2, "Visible"⟩], text := "Visible", parentElement := wC4ParaData,
    topElement := some wC4ParaData, bottomElement := some wC4ParaData,
    contextBefore := none, contextAfter := none,
    fingerprint := generateFingerprint "Visible" }

theorem claim_C4_witness :
    (⟨4, "NO"⟩ : TextNode) ∉ wC4Seg.nodes :=
  claim_C4_exclusion_amended.1 defaultSegmentOptions [] divRootData wC4Children
    wC4SkipData wC4SkipSub ⟨4, "NO"⟩ wC4Seg (by decide)
    (Or.inr ⟨by decide, by decide⟩) (by decide) (by decide)

/-- C6. A segment's fingerprint is a deterministic function of its
trimmed text alone: every segment produced by `collectSegments` satisfies
`fingerprint = generateFingerprint text` (context is attached only after
finalisation and never touches text or fingerprint), so any two segments
produced by the same segmenter — from any roots and any exclude sets —
with identical trimmed text have identical fingerprints. -/
theorem claim_C6_fingerprint_deterministic (opts : SegmentOptions)
    (exclude1 exclude2 : List Nat) (root1 root2 : ElemData)
    (children1 children2 : DomForest) (s t : TextSegment)
    (hs : s ∈ collectSegments opts exclude1 root1 children1)
    (ht : t ∈ collectSegments opts exclude2 root2 children2)
    (htext : s.text = t.text) : s.fingerprint = t.fingerprint := by
  have h1 := collectSegments_fpOk opts exclude1 root1 children1 s hs
  have h2 := collectSegments_fpOk opts exclude2 root2 children2 t ht
  unfold fpOk at h1 h2
  rw [h1, h2, htext]

def w6TreeA : DomForest := .cons (exText 1 "Same text") .nil

def w6TreeB : DomForest := .cons (exText 2 "  Same text") .nil

def w6SegA : TextSegment :=
  { nodes := [⟨1, "Same text"⟩], text := "Same text", parentElement := divRootData,
    topElement := some divRootData, bottomElement := some divRootData,
    contextBefore := none, contextAfter := none,
    fingerprint := generateFingerprint "Same text" }

def w6SegB : TextSegment :=
  { nodes := [⟨2, "  Same text"⟩], text := "Same text", parentElement := pRootData,
    topElement := some pRootData, bottomElement := some pRootData,
    contextBefore := none, contextAfter := none,
    fingerprint := generateFingerprint "Same text" }

theorem claim_C6_witness : w6SegA.fingerprint = w6SegB.fingerprint :=
  claim_C6_fingerprint_deterministic defaultSegmentOptions [] [] divRootData pRootData
    w6TreeA w6TreeB w6SegA w6SegB (by decide) (by decide) (by decide)

/-! ## Render pass structure (DomTranslator._render) -/

/-- The operations of one `DomTranslator._render` pass in source order
(dom-translator.ts lines 402-567): remove stale hosts (404), read the raw
text (407), lazily capture the replace-mode backup (410-412), invoke
`onRenderStart` (414), build the exclusion set (418-435), segment (437),
filter by length (441-445), `await filterEnglishSegments` (448), generate
the random token (454), store it in the target's cache entry (455-456),
build the translation promises (460-486), `await Promise.all` (488), and
compare the token and write or discard (489-561; the overlay re-check at
556-560 runs in the same synchronous block as the first comparison). -/
inductive RenderOp where
  | removeOldHosts
  | readRawText
  | captureHtmlBackup
  | callOnRenderStart
  | buildExcludeSet
  | segmentText
  | filterByLength
  | awaitLanguageFilter
  | generateToken
  | storeTokenInCache
  | buildTranslationPromises
  | awaitTranslationsAll
  | compareTokenAndWrite
deriving DecidableEq, Repr

def renderPassOps : List RenderOp :=
  [.removeOldHosts, .readRawText, .captureHtmlBackup, .callOnRenderStart,
   .buildExcludeSet, .segmentText, .filterByLength, .awaitLanguageFilter,
   .generateToken, .storeTokenInCache, .buildTranslationPromises,
   .awaitTranslationsAll, .compareTokenAndWrite]

/-- The pass suspends (yields to the event loop) exactly at its two
`await` expressions: the language filter and the translation batch. -/
def isSuspensionPoint : RenderOp → Bool
  | .awaitLanguageFilter => true
  | .awaitTranslationsAll => true
  | _ => false

/-- The operations executed before the token store. -/
def opsBeforeTokenStore : List RenderOp :=
  renderPassOps.takeWhile fun o => decide (o ≠ RenderOp.storeTokenInCache)

/-- C2, counterexample. The claim says no suspension point of the pass
precedes the token store, but the `await` on the language filter
(line 448) runs before the token is generated and stored (lines 454-456):
a suspension point occurs among the operations before the store. -/
theorem claim_C2_counterexample :
    RenderOp.awaitLanguageFilter ∈ opsBeforeTokenStore ∧
    isSuspensionPoint RenderOp.awaitLanguageFilter = true ∧
    ¬ (opsBeforeTokenStore.all fun o => !isSuspensionPoint o) = true := by
  decide

/-- C2, amended. In every render pass that reaches the token store, the
only suspension point before the store is the language-filter await; the
token store precedes the translation awaits (all translation work starts
only after the token is stored). -/
theorem claim_C2_token_before_translation :
    opsBeforeTokenStore.filter isSuspensionPoint = [RenderOp.awaitLanguageFilter] ∧
    RenderOp.storeTokenInCache ∈ renderPassOps ∧
    RenderOp.awaitTranslationsAll ∈
      (renderPassOps.dropWhile fun o => decide (o ≠ RenderOp.storeTokenInCache)) := by
  decide

/-! ## Replace-mode distribution (C7) -/

/-- JavaScript `Math.ceil(a / b)` for naturals (the source divides two
lengths; `b = 0` would give `Infinity` but is unreachable because a
segment's node list is never empty). -/
def jsCeilDiv (a b : Nat) : Nat := if b = 0 then 0 else (a + b - 1) / b

/-- The `forEach` body of the replace branch (dom-translator.ts lines
496-502): leaf `index` receives
`translation.slice(index * portionSize, index * portionSize + portionSize)`
with `portionSize = Math.ceil(translation.length / segment.nodes.length)`. -/
def distributeGo (translation : String) (portionSize : Nat) (i : Nat) :
    List TextNode → List TextNode
  | [] => []
  | n :: rest =>
    { n with content := jsSliceRange translation (i * portionSize) (i * portionSize + portionSize) } ::
      distributeGo translation portionSize (i + 1) rest

/-- Replace-mode write-back for one segment: overwrite each original leaf
in place with its consecutive chunk of the translated text. -/
def distributeReplace (translation : String) (nodes : List TextNode) : List TextNode :=
  distributeGo translation (jsCeilDiv translation.length nodes.length) 0 nodes

theorem take_drop_chain {α : Type} (l : List α) (a b c : Nat) (hab : a ≤ b) (hbc : b ≤ c) :
    (l.take b).drop a ++ (l.take c).drop b = (l.take c).drop a := by
  rw [List.drop_take, List.drop_take, List.drop_take]
  have hb : l.drop b = (l.drop a).drop (b - a) := by
    rw [List.drop_drop]
    congr 1
    omega
  rw [hb]
  generalize l.drop a = x
  rw [List.take_drop]
  have h1 : (b - a) + (c - b) = c - a := by omega
  rw [h1]
  have h2 : x.take (b - a) = (x.take (c - a)).take (b - a) := by
    rw [List.take_take]
    congr 1
    omega
  rw [h2]
  exact List.take_append_drop _ _

theorem distributeGo_contents (t : String) (p : Nat) (ns : List TextNode) :
    ∀ i : Nat,
      ((distributeGo t p i ns).map fun n => n.content.data).flatten =
        (t.data.take ((i + ns.length) * p)).drop (i * p) := by
  induction ns with
  | nil =>
    intro i
    simp [distributeGo, List.drop_take]
  | cons n rest ih =>
    intro i
    simp only [distributeGo, List.map_cons, List.flatten_cons, jsSliceRange, List.length_cons]
    rw [ih (i + 1)]
    have e1 : i * p + p = (i + 1) * p := by ring
    have e2 : (i + (rest.length + 1)) * p = (i + 1 + rest.length) * p := by ring
    rw [e1, e2]
    exact take_drop_chain t.data (i * p) ((i + 1) * p) ((i + 1 + rest.length) * p)
      (Nat.mul_le_mul_right p (by omega)) (Nat.mul_le_mul_right p (by omega))

theorem length_le_mul_ceilDiv (L n : Nat) (hn : 0 < n) : L ≤ n * jsCeilDiv L n := by
  unfold jsCeilDiv
  rw [if_neg (by omega)]
  have hdm := Nat.div_add_mod (L + n - 1) n
  have hmlt : (L + n - 1) % n < n := Nat.mod_lt _ hn
  omega

theorem joinData_foldl (l : List String) :
    ∀ s : String, (l.foldl (fun r t => r ++ t) s).data = s.data ++ (l.map String.data).flatten := by
  induction l with
  | nil => intro s; simp
  | cons a rest ih =>
    intro s
    simp only [List.foldl_cons, List.map_cons, List.flatten_cons]
    rw [ih (s ++ a)]
    simp

theorem distributeGo_ids (t : String) (p : Nat) (ns : List TextNode) :
    ∀ i : Nat, (distributeGo t p i ns).map (fun n => n.id) = ns.map (fun n => n.id) := by
  induction ns with
  | nil => intro i; simp [distributeGo]
  | cons n rest ih =>
    intro i
    simp only [distributeGo, List.map_cons]
    rw [ih (i + 1)]

theorem distributeGo_getElem (t : String) (p : Nat) (ns : List TextNode) :
    ∀ (i k : Nat), k < ns.length →
      ((distributeGo t p i ns).map fun n => n.content)[k]? =
        some (jsSliceRange t ((i + k) * p) ((i + k) * p + p)) := by
  induction ns with
  | nil => intro i k hk; simp at hk
  | cons n rest ih =>
    intro i k hk
    cases k with
    | zero => simp [distributeGo]
    | succ k2 =>
      simp only [distributeGo, List.map_cons, List.getElem?_cons_succ]
      rw [ih (i + 1) k2 (by simpa using hk)]
      have e : i + 1 + k2 = i + (k2 + 1) := by omega
      rw [e]

/-- C7. Replace-mode write-back distributes a segment's translated text
across its original leaves as consecutive chunks of size
`Math.ceil(translation.length / nodes.length)`: the leaves keep their
identity (in-place overwrite, first and second conjuncts), leaf `k`
receives exactly the `k`-th chunk (third conjunct), and the chunks
concatenate back to the whole translated text (first conjunct), so no
character is lost or duplicated. -/
theorem claim_C7_replace_distribution (translation : String) (nodes : List TextNode) (k : Nat)
    (hne : nodes ≠ []) (hk : k < nodes.length) :
    String.join ((distributeReplace translation nodes).map fun n => n.content) = translation ∧
    (distributeReplace translation nodes).map (fun n => n.id) = nodes.map (fun n => n.id) ∧
    ((distributeReplace translation nodes).map fun n => n.content)[k]? =
      some (jsSliceRange translation
        (k * jsCeilDiv translation.length nodes.length)
        (k * jsCeilDiv translation.length nodes.length +
          jsCeilDiv translation.length nodes.length)) := by
  refine ⟨?_, ?_, ?_⟩
  · apply String.ext
    have hjoin : (String.join ((distributeReplace translation nodes).map fun n => n.content)).data
        = (((distributeReplace translation nodes).map fun n => n.content).map String.data).flatten := by
      unfold String.join
      rw [joinData_foldl]
      rfl
    rw [hjoin]
    have hmapmap : (((distributeReplace translation nodes).map fun n => n.content).map String.data)
        = ((distributeReplace translation nodes).map fun n => n.content.data) := by
      rw [List.map_map]
      rfl
    rw [hmapmap]
    unfold distributeReplace
    rw [distributeGo_contents]
    simp only [Nat.zero_add, Nat.zero_mul, List.drop_zero]
    apply List.take_of_length_le
    have hn : 0 < nodes.length := List.length_pos.mpr hne
    have := length_le_mul_ceilDiv translation.data.length nodes.length hn
    calc translation.data.length
        ≤ nodes.length * jsCeilDiv translation.data.length nodes.length := this
      _ = nodes.length * jsCeilDiv translation.length nodes.length := rfl
  · exact distributeGo_ids translation _ nodes 0
  · have := distributeGo_getElem translation (jsCeilDiv translation.length nodes.length) nodes 0 k hk
    simpa using this

def w7Nodes : List TextNode := [⟨1, "x"⟩, ⟨2, "y"⟩, ⟨3, "z"⟩]

theorem claim_C7_witness :
    String.join ((distributeReplace "abcdefg" w7Nodes).map fun n => n.content) = "abcdefg" ∧
    (distributeReplace "abcdefg" w7Nodes).map (fun n => n.id) = w7Nodes.map (fun n => n.id) ∧
    ((distributeReplace "abcdefg" w7Nodes).map fun n => n.content)[1]? =
      some (jsSliceRange "abcdefg"
        (1 * jsCeilDiv "abcdefg".length w7Nodes.length)
        (1 * jsCeilDiv "abcdefg".length w7Nodes.length +
          jsCeilDiv "abcdefg".length w7Nodes.length)) :=
  claim_C7_replace_distribution "abcdefg" w7Nodes 1 (by decide) (by decide)

/-! ## Render-token staleness protocol (C1) -/

/-- Identifier for one of two render passes triggered on the same node. -/
inductive PassId where
  | A
  | B
deriving DecidableEq, Repr

/-- One atomic step of a render pass. The pass body of `_render` runs in
three synchronous blocks separated by its awaits:
`start` — the synchronous prelude through the language-filter await
(lines 402-448: remove stale hosts, read text, segment, filter);
`storeToken` — the continuation after the filter resolves, which
generates and stores the fresh token and launches the translation
promises (lines 454-486), suspending at `Promise.all`;
`checkApply` — the continuation after all translations resolve, which
compares the stored token with the captured one and either writes the
results to the DOM or discards them (lines 489-561; there is no await
between the two comparisons, so the block is atomic). -/
inductive RenderEvent where
  | start : PassId → RenderEvent
  | storeToken : PassId → RenderEvent
  | checkApply : PassId → RenderEvent
deriving DecidableEq, Repr

def RenderEvent.pass : RenderEvent → PassId
  | .start i => i
  | .storeToken i => i
  | .checkApply i => i

/-- The fresh random token of each pass (`Math.random().toString(36)`),
as an abstract number; freshness is the hypothesis `tA ≠ tB`. -/
def tokenOf (tA tB : Nat) : PassId → Nat
  | .A => tA
  | .B => tB

/-- The shared state the two passes race on: the node's cache entry
`lastId` and the record of which passes wrote their output to the DOM. -/
structure RenderRace where
  cacheLastId : Option Nat
  applied : List PassId
deriving DecidableEq, Repr

/-- Semantics of one event. `start` touches no shared token state;
`storeToken i` performs `cache.lastId = transId` (line 455);
`checkApply i` performs the comparison of line 489: on a match the pass
applies its output, on a mismatch it discards and performs no DOM
write. -/
def renderStep (tA tB : Nat) (s : RenderRace) : RenderEvent → RenderRace
  | .start _ => s
  | .storeToken i => { s with cacheLastId := some (tokenOf tA tB i) }
  | .checkApply i =>
    if s.cacheLastId = some (tokenOf tA tB i) then { s with applied := s.applied ++ [i] }
    else s

def runRender (tA tB : Nat) (sched : List RenderEvent) : RenderRace :=
  sched.foldl (renderStep tA tB) { cacheLastId := none, applied := [] }

/-- The pass whose token store is the most recent in the schedule. -/
def lastStoredPass (sched : List RenderEvent) : Option PassId :=
  sched.foldl (fun acc e => match e with | .storeToken i => some i | _ => acc) none

def passOps (sched : List RenderEvent) (i : PassId) : List RenderEvent :=
  sched.filter fun e => decide (e.pass = i)

/-- The legal event sequences of one pass: a prefix of
start, store, check. -/
def wfChain (i : PassId) : List (List RenderEvent) :=
  [[], [.start i], [.start i, .storeToken i],
   [.start i, .storeToken i, .checkApply i]]

abbrev wfFor (sched : List RenderEvent) (i : PassId) : Prop :=
  passOps sched i ∈ wfChain i

/-- A schedule is an interleaving of (a prefix of) the three steps of
each of the two passes, in per-pass order. -/
abbrev wfSchedule (sched : List RenderEvent) : Prop :=
  wfFor sched PassId.A ∧ wfFor sched PassId.B

theorem runRender_cacheLastId_aux (tA tB : Nat) (sched : List RenderEvent) :
    ∀ (s0 : RenderRace) (acc0 : Option PassId),
      s0.cacheLastId = acc0.map (tokenOf tA tB) →
      (sched.foldl (renderStep tA tB) s0).cacheLastId =
        (sched.foldl (fun acc e => match e with | .storeToken i => some i | _ => acc) acc0).map
          (tokenOf tA tB) := by
  induction sched with
  | nil => intro s0 acc0 h; exact h
  | cons e rest ih =>
    intro s0 acc0 h
    cases e with
    | start i => exact ih _ _ h
    | storeToken i => exact ih _ _ rfl
    | checkApply i =>
      apply ih
      simp only [renderStep]
      split <;> exact h

theorem runRender_cacheLastId (tA tB : Nat) (sched : List RenderEvent) :
    (runRender tA tB sched).cacheLastId = (lastStoredPass sched).map (tokenOf tA tB) :=
  runRender_cacheLastId_aux tA tB sched _ none rfl

theorem applied_mem_check_aux (tA tB : Nat) (sched : List RenderEvent) :
    ∀ (s0 : RenderRace) (i : PassId), i ∈ (sched.foldl (renderStep tA tB) s0).applied →
      i ∈ s0.applied ∨ RenderEvent.checkApply i ∈ sched := by
  induction sched with
  | nil => intro s0 i h; exact Or.inl h
  | cons e rest ih =>
    intro s0 i h
    rcases ih (renderStep tA tB s0 e) i h with h2 | h2
    · cases e with
      | start j => exact Or.inl h2
      | storeToken j => exact Or.inl h2
      | checkApply j =>
        simp only [renderStep] at h2
        by_cases hc : s0.cacheLastId = some (tokenOf tA tB j)
        · rw [if_pos hc] at h2
          simp only [List.mem_append, List.mem_singleton] at h2
          rcases h2 with h3 | h3
          · exact Or.inl h3
          · exact Or.inr (h3 ▸ List.mem_cons_self _ _)
        · rw [if_neg hc] at h2
          exact Or.inl h2
    · exact Or.inr (List.mem_cons_of_mem _ h2)

theorem applied_mem_check (tA tB : Nat) (sched : List RenderEvent) (i : PassId)
    (h : i ∈ (runRender tA tB sched).applied) : RenderEvent.checkApply i ∈ sched := by
  rcases applied_mem_check_aux tA tB sched _ i h with h2 | h2
  · simp at h2
  · exact h2

theorem wfChain_prefix (i : PassId) (xs ys : List RenderEvent)
    (h : xs ++ ys ∈ wfChain i) : xs ∈ wfChain i := by
  simp only [wfChain, List.mem_cons, List.mem_singleton, List.not_mem_nil, or_false] at h ⊢
  rcases xs with _ | ⟨a, _ | ⟨b, _ | ⟨c, _ | ⟨d, xs⟩⟩⟩⟩ <;> simp_all <;> tauto

theorem wf_prefix (sched : List RenderEvent) (e : RenderEvent)
    (h : wfSchedule (sched ++ [e])) : wfSchedule sched := by
  refine ⟨?_, ?_⟩
  · have h1 := h.1
    unfold wfFor passOps at h1 ⊢
    rw [List.filter_append] at h1
    exact wfChain_prefix _ _ _ h1
  · have h1 := h.2
    unfold wfFor passOps at h1 ⊢
    rw [List.filter_append] at h1
    exact wfChain_prefix _ _ _ h1

theorem check_notin_prefix (sched : List RenderEvent) (i : PassId)
    (h : wfSchedule (sched ++ [RenderEvent.checkApply i])) :
    RenderEvent.checkApply i ∉ sched := by
  intro hmem
  have hwfi : wfFor (sched ++ [RenderEvent.checkApply i]) i := by
    cases i
    · exact h.1
    · exact h.2
  unfold wfFor passOps at hwfi
  rw [List.filter_append] at hwfi
  have hfil : List.filter (fun e => decide (e.pass = i)) [RenderEvent.checkApply i] =
      [RenderEvent.checkApply i] := by
    simp [RenderEvent.pass]
  rw [hfil] at hwfi
  have hmem2 : RenderEvent.checkApply i ∈
      List.filter (fun e => decide (e.pass = i)) sched :=
    List.mem_filter.mpr ⟨hmem, by simp [RenderEvent.pass]⟩
  generalize hps : List.filter (fun e => decide (e.pass = i)) sched = ps at hwfi hmem2
  simp only [wfChain, List.mem_cons, List.mem_singleton, List.not_mem_nil, or_false] at hwfi
  rcases hwfi with h1 | h1 | h1 | h1
  · simp at h1
  · have := congrArg List.getLast? h1
    simp [List.getLast?_concat] at this
  · have := congrArg List.getLast? h1
    simp [List.getLast?_concat] at this
  · have h1x : ps ++ [RenderEvent.checkApply i] =
        [RenderEvent.start i, RenderEvent.storeToken i] ++ [RenderEvent.checkApply i] := h1
    have hps2 := (List.append_inj' h1x rfl).1
    rw [hps2] at hmem2
    simp at hmem2

theorem split_concat_ne {α : Type} (P : List α → Prop) (xs : List α) (e y : α) (hne : y ≠ e) :
    (∃ u w, xs ++ [e] = u ++ y :: w ∧ P u) ↔ (∃ u w, xs = u ++ y :: w ∧ P u) := by
  constructor
  · rintro ⟨u, w, huw, hP⟩
    rcases List.eq_nil_or_concat w with rfl | ⟨w2, a, rfl⟩
    · exfalso
      have hgl := congrArg List.getLast? huw
      have hgl1 : (xs ++ [e]).getLast? = some e := List.getLast?_concat _
      have hgl2 : (u ++ y :: ([] : List α)).getLast? = some y := List.getLast?_concat _
      rw [hgl1, hgl2] at hgl
      exact hne (Option.some.inj hgl).symm
    · have h2 : xs ++ [e] = (u ++ y :: w2) ++ [a] := by
        rw [huw]
        simp
      obtain ⟨h3, _⟩ := List.append_inj' h2 rfl
      exact ⟨u, w2, h3, hP⟩
  · rintro ⟨u, w, rfl, hP⟩
    exact ⟨u, w ++ [e], by simp, hP⟩

theorem split_concat_self {α : Type} (P : List α → Prop) (xs : List α) (c : α)
    (hnotin : c ∉ xs) :
    (∃ u w, xs ++ [c] = u ++ c :: w ∧ P u) ↔ P xs := by
  constructor
  · rintro ⟨u, w, huw, hP⟩
    rcases List.eq_nil_or_concat w with rfl | ⟨w2, a, rfl⟩
    · have huw2 : xs ++ [c] = u ++ [c] := huw
      have h3 := (List.append_inj' huw2 rfl).1
      rw [h3]
      exact hP
    · have h2 : xs ++ [c] = (u ++ c :: w2) ++ [a] := by
        rw [huw]
        simp
      obtain ⟨h3, _⟩ := List.append_inj' h2 rfl
      exfalso
      apply hnotin
      rw [h3]
      simp
  · intro hP
    exact ⟨xs, [], rfl, hP⟩

theorem lastStoredPass_concat_start (sched : List RenderEvent) (j : PassId) :
    lastStoredPass (sched ++ [RenderEvent.start j]) = lastStoredPass sched := by
  simp [lastStoredPass, List.foldl_append]

theorem lastStoredPass_concat_check (sched : List RenderEvent) (j : PassId) :
    lastStoredPass (sched ++ [RenderEvent.checkApply j]) = lastStoredPass sched := by
  simp [lastStoredPass, List.foldl_append]

theorem tokenOf_inj (tA tB : Nat) (hne : tA ≠ tB) (i j : PassId)
    (h : tokenOf tA tB i = tokenOf tA tB j) : i = j := by
  cases i <;> cases j <;> simp_all [tokenOf]

/-- C1, amended. Characterisation of the render-token staleness protocol
over every interleaving of two render passes with distinct fresh tokens:
a pass's output is applied if and only if the schedule reaches that pass's
token comparison and, at that moment, the pass's own token store is the
most recent one — equivalently, a pass whose stored token has been
overwritten by the other pass between its store and its check discards
its results and performs no DOM write. Because the token is stored only
after the language-filter await, which pass stores last (and hence which
pass wins) is NOT determined by trigger order, and a pass that checks
before the other pass stores is not discarded at all; the original
claim's consequence that only the later trigger's output is ever applied
is refuted by `claim_C1_counterexample`. -/
theorem claim_C1_render_token_protocol (tA tB : Nat) (sched : List RenderEvent)
    (hwf : wfSchedule sched) (hne : tA ≠ tB) (i : PassId) :
    i ∈ (runRender tA tB sched).applied ↔
      ∃ u w, sched = u ++ RenderEvent.checkApply i :: w ∧ lastStoredPass u = some i := by
  revert hwf
  induction sched using List.reverseRecOn with
  | nil =>
    intro _
    constructor
    · intro h
      simp [runRender] at h
    · rintro ⟨u, w, huw, -⟩
      exact absurd huw (by simp)
  | append_singleton xs e ih =>
    intro hwf
    have hwf' := wf_prefix xs e hwf
    have hrun : runRender tA tB (xs ++ [e]) = renderStep tA tB (runRender tA tB xs) e := by
      simp [runRender, List.foldl_append]
    cases e with
    | start j =>
      rw [hrun]
      rw [split_concat_ne (fun u => lastStoredPass u = some i) xs
        (RenderEvent.start j) (RenderEvent.checkApply i) (fun h => nomatch h)]
      exact ih hwf'
    | storeToken j =>
      rw [hrun]
      rw [split_concat_ne (fun u => lastStoredPass u = some i) xs
        (RenderEvent.storeToken j) (RenderEvent.checkApply i) (fun h => nomatch h)]
      exact ih hwf'
    | checkApply j =>
      by_cases hij : j = i
      · subst hij
        rw [hrun]
        have hnotin := check_notin_prefix xs j hwf
        have hnoapp : j ∉ (runRender tA tB xs).applied := fun hmem =>
          hnotin (applied_mem_check tA tB xs j hmem)
        rw [split_concat_self (fun u => lastStoredPass u = some j) xs
          (RenderEvent.checkApply j) hnotin]
        simp only [renderStep]
        by_cases hc : (runRender tA tB xs).cacheLastId = some (tokenOf tA tB j)
        · rw [if_pos hc]
          simp only [List.mem_append, List.mem_singleton]
          constructor
          · intro _
            have hmap := runRender_cacheLastId tA tB xs
            rw [hmap] at hc
            cases hls : lastStoredPass xs with
            | none => rw [hls] at hc; simp at hc
            | some j2 =>
              rw [hls] at hc
              simp only [Option.map] at hc
              exact congrArg some (tokenOf_inj tA tB hne j2 j (Option.some.inj hc))
          · intro _
            exact Or.inr trivial
        · rw [if_neg hc]
          constructor
          · intro h
            exact absurd h hnoapp
          · intro hlast
            exfalso
            apply hc
            rw [runRender_cacheLastId tA tB xs, hlast]
            rfl
      · rw [hrun]
        rw [split_concat_ne (fun u => lastStoredPass u = some i) xs
          (RenderEvent.checkApply j) (RenderEvent.checkApply i)
          (fun h => hij (RenderEvent.checkApply.inj h).symm)]
        simp only [renderStep]
        by_cases hc : (runRender tA tB xs).cacheLastId = some (tokenOf tA tB j)
        · rw [if_pos hc]
          simp only [List.mem_append, List.mem_singleton]
          constructor
          · intro h
            rcases h with h | h
            · exact (ih hwf').mp h
            · exact absurd h.symm hij
          · intro h
            exact Or.inl ((ih hwf').mpr h)
        · rw [if_neg hc]
          exact ih hwf'

/-- The adversarial interleaving: pass A is triggered first, pass B is
triggered before A resolves (overlap), but B's language filter resolves
first, so B stores its token before A does; A's store then overwrites
B's, A's check succeeds and A applies, and B's check fails and B
discards. -/
def staleRaceSchedule : List RenderEvent :=
  [.start .A, .start .B, .storeToken .B, .storeToken .A, .checkApply .A, .checkApply .B]

/-- C1, counterexample. On `staleRaceSchedule` — a well-formed
interleaving in which render A is triggered first (the schedule's head is
A's start) and render B is triggered before A resolves — the EARLIER
trigger's output is the one applied and the later trigger's output is
discarded, refuting the claim that only the later trigger's output is
ever applied. The token-mismatch discard itself behaves as claimed (B
discards after its token is overwritten); it is the identification of
"winner" with "later trigger" that fails. -/
theorem claim_C1_counterexample :
    wfSchedule staleRaceSchedule ∧
    staleRaceSchedule.head? = some (RenderEvent.start PassId.A) ∧
    RenderEvent.checkApply PassId.B ∈ staleRaceSchedule ∧
    (runRender 0 1 staleRaceSchedule).applied = [PassId.A] := by
  refine ⟨⟨by decide, by decide⟩, by decide, by decide, by decide⟩

def seqSchedule : List RenderEvent :=
  [.start .A, .storeToken .A, .checkApply .A, .start .B, .storeToken .B, .checkApply .B]

theorem claim_C1_witness :
    PassId.B ∈ (runRender 0 1 seqSchedule).applied ↔
      ∃ u w, seqSchedule = u ++ RenderEvent.checkApply PassId.B :: w ∧
        lastStoredPass u = some PassId.B :=
  claim_C1_render_token_protocol 0 1 seqSchedule ⟨by decide, by decide⟩ (by decide) PassId.B

/-! ## Content language filter (language-detector.ts, C8 and C10) -/

structure LanguageDetectionResult where
  language : String
  percentage : Nat
  isReliable : Bool
deriving DecidableEq, Repr

/-- The possible outcomes of one `browser.i18n.detectLanguage` call:
the promise rejects (caught at lines 58-61), the call resolves with a
falsy result, or it resolves with a result carrying `isReliable` and a
(possibly empty) language list with confidence percentages. -/
inductive ClassifierOutcome where
  | rejected
  | noResult
  | ok : Bool → List (String × Nat) → ClassifierOutcome
deriving DecidableEq, Repr

def ENGLISH_CODE : String := "en"

def MIN_CONFIDENCE : Nat := 95

/-- `LanguageDetector.getCacheKey` (lines 121-124): trimmed, lower-cased,
truncated to 100 characters. -/
def getCacheKey (text : String) : String :=
  let normalized := (jsTrim text).toLower
  if normalized.length > 100 then jsTakeChars normalized 100 else normalized

def lookupCache (cache : List (String × LanguageDetectionResult)) (key : String) :
    Option LanguageDetectionResult :=
  (cache.find? fun p => p.1 == key).map fun p => p.2

/-- `LanguageDetector.detectLanguage` (lines 26-62) with the classifier
outcome made explicit. Returns the detection result and the updated
cache: `null` for empty/short text, a cache hit short-circuits the call,
a rejected call or a falsy/unreliable/empty-language result yields `null`
without caching, and a usable result caches and returns its primary
language. -/
def detectLanguage (cache : List (String × LanguageDetectionResult))
    (outcome : ClassifierOutcome) (text : String) :
    Option LanguageDetectionResult × List (String × LanguageDetectionResult) :=
  if text = "" || (jsTrim text).length < 10 then (none, cache)
  else
    let key := getCacheKey text
    match lookupCache cache key with
    | some r => (some r, cache)
    | none =>
      match outcome with
      | .rejected => (none, cache)
      | .noResult => (none, cache)
      | .ok rel langs =>
        if !rel then (none, cache)
        else
          match langs with
          | [] => (none, cache)
          | (lang, pct) :: _ =>
            let detection : LanguageDetectionResult :=
              { language := lang, percentage := pct, isReliable := rel }
            (some detection, cache ++ [(key, detection)])

/-- `LanguageDetector.isEnglish` (lines 67-80): fail open on a missing or
unreliable result, otherwise require English at or above the confidence
threshold. -/
def isEnglish (cache : List (String × LanguageDetectionResult))
    (outcome : ClassifierOutcome) (text : String) :
    Bool × List (String × LanguageDetectionResult) :=
  let rc := detectLanguage cache outcome text
  match rc.1 with
  | none => (true, rc.2)
  | some res =>
    if !res.isReliable then (true, rc.2)
    else (res.language == ENGLISH_CODE && decide (res.percentage ≥ MIN_CONFIDENCE), rc.2)

/-- `LanguageDetector.filterEnglishSegments` (lines 106-116). All the
per-segment `isEnglish` calls of one batch read the cache in the
synchronous prefix of their promises (the cache lookup in
`detectLanguage` precedes its await), so every decision of the batch sees
the same initial cache; the oracle gives each text's classifier
outcome. -/
def filterEnglishSegments (cache : List (String × LanguageDetectionResult))
    (oracle : String → ClassifierOutcome) (segments : List TextSegment) : List TextSegment :=
  segments.filter fun seg => (isEnglish cache (oracle seg.text) seg.text).1

/-- An outcome in which the classifier call rejects, returns no result,
or returns a result marked unreliable. -/
def isBadOutcome : ClassifierOutcome → Bool
  | .rejected => true
  | .noResult => true
  | .ok rel _ => !rel

/-- C8. The Content Language Filter fails open: whenever the classifier
is actually called (the text reaches the call: no cache hit for its key)
and the call rejects, returns no result, or returns a result marked
unreliable, `isEnglish` returns true, and the segment is kept by
`filterEnglishSegments` and proceeds to translation. -/
theorem claim_C8_fail_open (cache : List (String × LanguageDetectionResult))
    (oracle : String → ClassifierOutcome) (segments : List TextSegment) (seg : TextSegment)
    (hseg : seg ∈ segments)
    (hmiss : lookupCache cache (getCacheKey seg.text) = none)
    (hbad : isBadOutcome (oracle seg.text) = true) :
    (isEnglish cache (oracle seg.text) seg.text).1 = true ∧
    seg ∈ filterEnglishSegments cache oracle segments := by
  have heng : (isEnglish cache (oracle seg.text) seg.text).1 = true := by
    unfold isEnglish detectLanguage
    by_cases hshort : (seg.text = "" || decide ((jsTrim seg.text).length < 10)) = true
    · simp only [hshort, if_true]
    · simp only [hshort, Bool.false_eq_true, if_false]
      rw [hmiss]
      cases houtcome : oracle seg.text with
      | rejected => rfl
      | noResult => rfl
      | ok rel langs =>
        rw [houtcome] at hbad
        simp only [isBadOutcome, Bool.not_eq_true'] at hbad
        simp only [hbad, Bool.not_false, if_true]
  exact ⟨heng, List.mem_filter.mpr ⟨hseg, heng⟩⟩

def wC8Seg : TextSegment :=
  { nodes := [⟨1, "The classifier cannot read this."⟩],
    text := "The classifier cannot read this.", parentElement := divRootData,
    topElement := some divRootData, bottomElement := some divRootData,
    contextBefore := none, contextAfter := none,
    fingerprint := generateFingerprint "The classifier cannot read this." }

theorem claim_C8_witness :
    (isEnglish [] (ClassifierOutcome.rejected) wC8Seg.text).1 = true ∧
    wC8Seg ∈ filterEnglishSegments [] (fun _ => ClassifierOutcome.rejected) [wC8Seg] :=
  claim_C8_fail_open [] (fun _ => ClassifierOutcome.rejected) [wC8Seg] wC8Seg
    (List.mem_singleton.mpr rfl) (by decide) (by decide)

/-- C10. Any text whose trimmed length is under 10 characters is never
sent to the classifier — `detectLanguage` returns `null` and leaves the
cache untouched for EVERY possible classifier outcome, so the result
cannot depend on a call — and always passes the filter: `isEnglish`
returns true and `filterEnglishSegments` keeps every such segment,
whatever its actual language. -/
theorem claim_C10_short_text_passes :
    (∀ (cache : List (String × LanguageDetectionResult)) (outcome : ClassifierOutcome)
        (text : String), (jsTrim text).length < 10 →
      detectLanguage cache outcome text = (none, cache) ∧
      (isEnglish cache outcome text).1 = true) ∧
    (∀ (cache : List (String × LanguageDetectionResult))
        (oracle : String → ClassifierOutcome) (segments : List TextSegment)
        (seg : TextSegment), seg ∈ segments → (jsTrim seg.text).length < 10 →
      seg ∈ filterEnglishSegments cache oracle segments) := by
  have hdet : ∀ (cache : List (String × LanguageDetectionResult)) (outcome : ClassifierOutcome)
      (text : String), (jsTrim text).length < 10 →
      detectLanguage cache outcome text = (none, cache) := by
    intro cache outcome text hshort
    unfold detectLanguage
    have hcond : (text = "" || decide ((jsTrim text).length < 10)) = true := by
      simp [hshort]
    rw [if_pos hcond]
  have heng : ∀ (cache : List (String × LanguageDetectionResult)) (outcome : ClassifierOutcome)
      (text : String), (jsTrim text).length < 10 → (isEnglish cache outcome text).1 = true := by
    intro cache outcome text hshort
    unfold isEnglish
    rw [hdet cache outcome text hshort]
  refine ⟨fun cache outcome text h => ⟨hdet cache outcome text h, heng cache outcome text h⟩,
    fun cache oracle segments seg hseg hshort => ?_⟩
  exact List.mem_filter.mpr ⟨hseg, heng cache (oracle seg.text) seg.text hshort⟩

def wC10Seg : TextSegment :=
  { nodes := [⟨1, "Bonjour!"⟩], text := "Bonjour!", parentElement := divRootData,
    topElement := some divRootData, bottomElement := some divRootData,
    contextBefore := none, contextAfter := none,
    fingerprint := generateFingerprint "Bonjour!" }

theorem claim_C10_witness :
    (detectLanguage [] (ClassifierOutcome.ok true [("fr", 100)]) "Bonjour!" =
        (none, []) ∧
      (isEnglish [] (ClassifierOutcome.ok true [("fr", 100)]) "Bonjour!").1 = true) ∧
    wC10Seg ∈ filterEnglishSegments []
      (fun _ => ClassifierOutcome.ok true [("fr", 100)]) [wC10Seg] :=
  ⟨claim_C10_short_text_passes.1 [] (ClassifierOutcome.ok true [("fr", 100)]) "Bonjour!"
      (by decide),
    claim_C10_short_text_passes.2 [] (fun _ => ClassifierOutcome.ok true [("fr", 100)])
      [wC10Seg] wC10Seg (List.mem_singleton.mpr rfl) (by decide)⟩

/-! ## Teardown and restoration (DomTranslator.unregister, C9)

The restore model operates on the light DOM only: `querySelector` and
`innerHTML` never cross a shadow boundary, so a `shadowHost` is opaque
here (its unmodelled light children are not searched or edited). -/

mutual
/-- The ids of the light-DOM elements that host-removal and
`innerHTML` restoration can reach. -/
def elemIdsN : DomNode → List Nat
  | .text _ => []
  | .elem e c => e.id :: elemIdsF c
  | .shadowHost _ _ => []
def elemIdsF : DomForest → List Nat
  | .nil => []
  | .cons n rest => elemIdsN n ++ elemIdsF rest
end

mutual
/-- The ids of the injected host elements (tag = `hostTag`) in document
order, as `querySelectorAll(hostTag)` would list them. -/
def hostIdsN (hostTag : String) : DomNode → List Nat
  | .text _ => []
  | .elem e c =>
    if e.tagName = hostTag then e.id :: hostIdsF hostTag c else hostIdsF hostTag c
  | .shadowHost _ _ => []
def hostIdsF (hostTag : String) : DomForest → List Nat
  | .nil => []
  | .cons n rest => hostIdsN hostTag n ++ hostIdsF hostTag rest
end

mutual
/-- The children of the first (document-order) element with the given
id — the node `querySelector`-style lookup resolves a reference to. -/
def findChildrenN : DomNode → Nat → Option DomForest
  | .text _, _ => none
  | .elem e c, nid => if e.id = nid then some c else findChildrenF c nid
  | .shadowHost _ _, _ => none
def findChildrenF : DomForest → Nat → Option DomForest
  | .nil, _ => none
  | .cons n rest, nid =>
    match findChildrenN n nid with
    | some c => some c
    | none => findChildrenF rest nid
end

mutual
/-- Apply `f` to the children of the first element with the given id;
the flag reports whether such an element was found. The tree is returned
unchanged when it is not. -/
def modifyAtN : DomNode → Nat → (DomForest → DomForest) → DomNode × Bool
  | .text t, _, _ => (.text t, false)
  | .elem e c, nid, f =>
    if e.id = nid then (.elem e (f c), true)
    else
      match modifyAtF c nid f with
      | (c2, true) => (.elem e c2, true)
      | (_, false) => (.elem e c, false)
  | .shadowHost e sc, _, _ => (.shadowHost e sc, false)
def modifyAtF : DomForest → Nat → (DomForest → DomForest) → DomForest × Bool
  | .nil, _, _ => (.nil, false)
  | .cons n rest, nid, f =>
    match modifyAtN n nid f with
    | (n2, true) => (.cons n2 rest, true)
    | (_, false) =>
      match modifyAtF rest nid f with
      | (rest2, found) => (.cons n rest2, found)
end

def modifyChildren (d : DomForest) (nid : Nat) (f : DomForest → DomForest) : DomForest :=
  (modifyAtF d nid f).1

/-- `node.querySelector(hostTag)` followed by `host.remove()`: delete the
first element with the host tag (in document order, descendants
included), together with its subtree. -/
def removeFirstHostF (hostTag : String) : DomForest → DomForest × Bool
  | .nil => (.nil, false)
  | .cons n rest =>
    match n with
    | .elem e c =>
      if e.tagName = hostTag then (rest, true)
      else
        match removeFirstHostF hostTag c with
        | (c2, true) => (.cons (.elem e c2) rest, true)
        | (_, false) =>
          match removeFirstHostF hostTag rest with
          | (rest2, r) => (.cons (.elem e c) rest2, r)
    | _ =>
      match removeFirstHostF hostTag rest with
      | (rest2, r) => (.cons n rest2, r)

/-- The injected host markers currently under the element with the given
id (empty when the element is absent). -/
def hostsUnder (hostTag : String) (d : DomForest) (nid : Nat) : List Nat :=
  match findChildrenF d nid with
  | some c => hostIdsF hostTag c
  | none => []

mutual
/-- The ids occurring strictly below any element whose id is `m`. -/
def underAllN (m : Nat) : DomNode → List Nat
  | .text _ => []
  | .elem e c => (if e.id = m then elemIdsF c else []) ++ underAllF m c
  | .shadowHost _ _ => []
def underAllF (m : Nat) : DomForest → List Nat
  | .nil => []
  | .cons n rest => underAllN m n ++ underAllF m rest
end

inductive DisplayMode where
  | overlay
  | replace
deriving DecidableEq, Repr

/-- The `Cache` record of dom-translator.ts (lines 35-39); `htmlBackup`
holds the parsed form of the captured `innerHTML` string. -/
structure TargetCache where
  snapshot : Option String
  htmlBackup : Option DomForest
  lastId : Option Nat
deriving DecidableEq

def emptyTargetCache : TargetCache :=
  { snapshot := none, htmlBackup := none, lastId := none }

/-- The bookkeeping state of a `DomTranslator` instance: root set, target
map (insertion-ordered), the segmenter's two caches, the translation
cache, the in-flight fingerprint set, and the language detector's
cache. -/
structure TranslatorState where
  rootSet : List Nat
  targetMap : List (Nat × TargetCache)
  segmentCacheKeys : List Nat
  fingerprintCache : List (String × String)
  translationCache : List (String × String)
  translatingFingerprints : List String
  detectorCache : List (String × LanguageDetectionResult)
deriving DecidableEq

def emptyTranslatorState : TranslatorState :=
  { rootSet := [], targetMap := [], segmentCacheKeys := [], fingerprintCache := [],
    translationCache := [], translatingFingerprints := [], detectorCache := [] }

/-- One iteration of `_restoreAll` (dom-translator.ts lines 709-720):
remove the first host marker under the target, then, in replace mode
with a captured backup, assign the backup to the target's `innerHTML`. -/
def restoreTarget (mode : DisplayMode) (hostTag : String) (d : DomForest) (nid : Nat)
    (cache : TargetCache) : DomForest :=
  let d1 := modifyChildren d nid (fun c => (removeFirstHostF hostTag c).1)
  match mode, cache.htmlBackup with
  | .replace, some b => modifyChildren d1 nid (fun _ => b)
  | _, _ => d1

/-- `DomTranslator._restoreAll` (lines 708-721): iterate the target map
in insertion order. -/
def restoreAll (mode : DisplayMode) (hostTag : String) (d : DomForest)
    (targetMap : List (Nat × TargetCache)) : DomForest :=
  targetMap.foldl (fun acc p => restoreTarget mode hostTag acc p.1 p.2) d

/-- `DomTranslator.unregister` (lines 136-148): run `_restoreAll`, then
clear every bookkeeping map and cache (root set, target map, both
segmenter caches, translation cache, in-flight set, detector cache).
Observer disconnection and title restoration have no bookkeeping or DOM
footprint in this model. -/
def unregister (mode : DisplayMode) (hostTag : String) (st : TranslatorState)
    (d : DomForest) : TranslatorState × DomForest :=
  (emptyTranslatorState, restoreAll mode hostTag d st.targetMap)

def c9HostB : DomNode := .elem ⟨3, "x-kt-trans", [], none, "inherit", "block"⟩
  (.cons (exText 10 "B translated") .nil)

def c9TargetB : DomNode := .elem ⟨2, "p", [], none, "inherit", "block"⟩
  (.cons (exText 11 "B text") (.cons c9HostB .nil))

def c9HostA : DomNode := .elem ⟨4, "x-kt-trans", [], none, "inherit", "block"⟩
  (.cons (exText 12 "tail translated") .nil)

def c9Dom : DomForest :=
  .cons (.elem ⟨1, "div", [], none, "inherit", "block"⟩
    (.cons c9TargetB (.cons (exText 13 "tail") (.cons c9HostA .nil)))) .nil

def c9State : TranslatorState :=
  { rootSet := [], targetMap := [(1, emptyTargetCache), (2, emptyTargetCache)],
    segmentCacheKeys := [], fingerprintCache := [], translationCache := [],
    translatingFingerprints := [], detectorCache := [] }

/-- C9, counterexample. `_restoreAll` removes only the FIRST host marker
under each target (`querySelector`, not `querySelectorAll`). With nested
targets — reachable with selector `"div;p"` and trigger `open`: the outer
div (id 1, direct text after the nested p) and the inner p (id 2) are
both registered, the div renders first so its host (id 4) sits after the
p's host (id 3) in document order — unregister removes host 3 twice over
(the first host under the div IS the p's host, and the p then has none),
and host 4 survives under former target 1: not every injected host marker
is removed. -/
theorem claim_C9_counterexample :
    (1, emptyTargetCache) ∈ c9State.targetMap ∧
    hostsUnder "x-kt-trans" c9Dom 1 = [3, 4] ∧
    hostsUnder "x-kt-trans"
      (unregister DisplayMode.overlay "x-kt-trans" c9State c9Dom).2 1 = [4] := by
  decide

mutual
theorem findChildrenN_none_iff (n : DomNode) (nid : Nat) :
    findChildrenN n nid = none ↔ nid ∉ elemIdsN n := by
  cases n with
  | text t => simp [findChildrenN, elemIdsN]
  | elem e c =>
    by_cases he : e.id = nid
    · simp [findChildrenN, elemIdsN, he]
    · simp only [findChildrenN, if_neg he, elemIdsN, List.mem_cons]
      rw [findChildrenF_none_iff c nid]
      constructor
      · intro h hor
        rcases hor with h2 | h2
        · exact he h2.symm
        · exact h h2
      · intro h h2
        exact h (Or.inr h2)
  | shadowHost e sc => simp [findChildrenN, elemIdsN]
theorem findChildrenF_none_iff (d : DomForest) (nid : Nat) :
    findChildrenF d nid = none ↔ nid ∉ elemIdsF d := by
  cases d with
  | nil => simp [findChildrenF, elemIdsF]
  | cons n rest =>
    simp only [findChildrenF, elemIdsF, List.mem_append]
    cases hn : findChildrenN n nid with
    | some c =>
      constructor
      · intro h
        exact absurd h (by simp)
      · intro h
        exfalso
        apply h
        left
        by_contra hmem
        rw [← findChildrenN_none_iff n nid] at hmem
        rw [hn] at hmem
        exact Option.noConfusion hmem
    | none =>
      rw [findChildrenF_none_iff rest nid]
      have hnmem : nid ∉ elemIdsN n := (findChildrenN_none_iff n nid).mp hn
      constructor
      · intro h hor
        rcases hor with h2 | h2
        · exact hnmem h2
        · exact h h2
      · intro h h2
        exact h (Or.inr h2)
end

theorem modifyAtN_elem_eq (e : ElemData) (c : DomForest) (nid : Nat) (f : DomForest → DomForest) :
    modifyAtN (DomNode.elem e c) nid f =
      if e.id = nid then (DomNode.elem e (f c), true)
      else if (modifyAtF c nid f).2 = true then (DomNode.elem e (modifyAtF c nid f).1, true)
      else (DomNode.elem e c, false) := by
  by_cases he : e.id = nid
  · simp [modifyAtN, he]
  · simp only [modifyAtN, if_neg he]
    cases hm : modifyAtF c nid f with
    | mk c2 flag =>
      cases flag with
      | true => simp
      | false => simp

theorem modifyAtF_cons_eq (n : DomNode) (rest : DomForest) (nid : Nat)
    (f : DomForest → DomForest) :
    modifyAtF (DomForest.cons n rest) nid f =
      if (modifyAtN n nid f).2 = true then (DomForest.cons (modifyAtN n nid f).1 rest, true)
      else (DomForest.cons n (modifyAtF rest nid f).1, (modifyAtF rest nid f).2) := by
  simp only [modifyAtF]
  cases hn : modifyAtN n nid f with
  | mk n2 nflag =>
    cases nflag with
    | true => simp
    | false => simp

mutual
theorem modifyAtN_false (n : DomNode) (nid : Nat) (f : DomForest → DomForest)
    (h : (modifyAtN n nid f).2 = false) :
    (modifyAtN n nid f).1 = n ∧ nid ∉ elemIdsN n := by
  cases n with
  | text t => simp [modifyAtN, elemIdsN]
  | elem e c =>
    rw [modifyAtN_elem_eq] at h ⊢
    by_cases he : e.id = nid
    · rw [if_pos he] at h
      simp at h
    · rw [if_neg he] at h ⊢
      by_cases hflag : (modifyAtF c nid f).2 = true
      · rw [if_pos hflag] at h
        simp at h
      · rw [if_neg hflag] at h ⊢
        have h2 := modifyAtF_false c nid f (by simpa using hflag)
        refine ⟨rfl, ?_⟩
        simp only [elemIdsN, List.mem_cons]
        intro hor
        rcases hor with h3 | h3
        · exact he h3.symm
        · exact h2.2 h3
  | shadowHost e sc => simp [modifyAtN, elemIdsN]
theorem modifyAtF_false (d : DomForest) (nid : Nat) (f : DomForest → DomForest)
    (h : (modifyAtF d nid f).2 = false) :
    (modifyAtF d nid f).1 = d ∧ nid ∉ elemIdsF d := by
  cases d with
  | nil => simp [modifyAtF, elemIdsF]
  | cons n rest =>
    rw [modifyAtF_cons_eq] at h ⊢
    by_cases hflag : (modifyAtN n nid f).2 = true
    · rw [if_pos hflag] at h
      simp at h
    · rw [if_neg hflag] at h ⊢
      have hnn := modifyAtN_false n nid f (by simpa using hflag)
      have hrr := modifyAtF_false rest nid f h
      constructor
      · simp only []
        rw [hrr.1]
      · simp only [elemIdsF, List.mem_append]
        intro hor
        rcases hor with h3 | h3
        · exact hnn.2 h3
        · exact hrr.2 h3
end

mutual
theorem modifyAtN_true_mem (n : DomNode) (nid : Nat) (f : DomForest → DomForest)
    (h : (modifyAtN n nid f).2 = true) : nid ∈ elemIdsN n := by
  cases n with
  | text t => simp [modifyAtN] at h
  | elem e c =>
    rw [modifyAtN_elem_eq] at h
    by_cases he : e.id = nid
    · simp [elemIdsN, he]
    · rw [if_neg he] at h
      by_cases hflag : (modifyAtF c nid f).2 = true
      · have := modifyAtF_true_mem c nid f hflag
        simp [elemIdsN, this]
      · rw [if_neg hflag] at h
        simp at h
  | shadowHost e sc => simp [modifyAtN] at h
theorem modifyAtF_true_mem (d : DomForest) (nid : Nat) (f : DomForest → DomForest)
    (h : (modifyAtF d nid f).2 = true) : nid ∈ elemIdsF d := by
  cases d with
  | nil => simp [modifyAtF] at h
  | cons n rest =>
    rw [modifyAtF_cons_eq] at h
    by_cases hflag : (modifyAtN n nid f).2 = true
    · have := modifyAtN_true_mem n nid f hflag
      simp [elemIdsF, this]
    · rw [if_neg hflag] at h
      have := modifyAtF_true_mem rest nid f h
      simp [elemIdsF, this]
end

mutual
theorem modifyAt_find_self_N (n : DomNode) (nid : Nat) (f : DomForest → DomForest) :
    findChildrenN (modifyAtN n nid f).1 nid = (findChildrenN n nid).map f := by
  cases n with
  | text t => simp [modifyAtN, findChildrenN]
  | elem e c =>
    rw [modifyAtN_elem_eq]
    by_cases he : e.id = nid
    · rw [if_pos he]
      simp [findChildrenN, he]
    · rw [if_neg he]
      by_cases hflag : (modifyAtF c nid f).2 = true
      · rw [if_pos hflag]
        simp only [findChildrenN, if_neg he]
        exact modifyAt_find_self_F c nid f
      · rw [if_neg hflag]
        simp only [findChildrenN, if_neg he]
        have h2 := modifyAtF_false c nid f (by simpa using hflag)
        rw [(findChildrenF_none_iff c nid).mpr h2.2]
        rfl
  | shadowHost e sc => simp [modifyAtN, findChildrenN]
theorem modifyAt_find_self_F (d : DomForest) (nid : Nat) (f : DomForest → DomForest) :
    findChildrenF (modifyAtF d nid f).1 nid = (findChildrenF d nid).map f := by
  cases d with
  | nil => simp [modifyAtF, findChildrenF]
  | cons n rest =>
    rw [modifyAtF_cons_eq]
    by_cases hflag : (modifyAtN n nid f).2 = true
    · rw [if_pos hflag]
      simp only [findChildrenF]
      rw [modifyAt_find_self_N n nid f]
      cases hfind : findChildrenN n nid with
      | some c => simp
      | none =>
        exfalso
        exact ((findChildrenN_none_iff n nid).mp hfind) (modifyAtN_true_mem n nid f hflag)
    · rw [if_neg hflag]
      simp only [findChildrenF]
      have hnn := modifyAtN_false n nid f (by simpa using hflag)
      have hfind : findChildrenN n nid = none := (findChildrenN_none_iff n nid).mpr hnn.2
      rw [hfind]
      exact modifyAt_find_self_F rest nid f
end

mutual
theorem underAllN_sub (m : Nat) (n : DomNode) (x : Nat) (hx : x ∈ underAllN m n) :
    x ∈ elemIdsN n := by
  cases n with
  | text t => simp [underAllN] at hx
  | elem e c =>
    simp only [underAllN, List.mem_append] at hx
    simp only [elemIdsN, List.mem_cons]
    rcases hx with h | h
    · by_cases he : e.id = m
      · rw [if_pos he] at h
        exact Or.inr h
      · rw [if_neg he] at h
        simp at h
    · exact Or.inr (underAllF_sub m c x h)
  | shadowHost e sc => simp [underAllN] at hx
theorem underAllF_sub (m : Nat) (d : DomForest) (x : Nat) (hx : x ∈ underAllF m d) :
    x ∈ elemIdsF d := by
  cases d with
  | nil => simp [underAllF] at hx
  | cons n rest =>
    simp only [underAllF, List.mem_append] at hx
    simp only [elemIdsF, List.mem_append]
    rcases hx with h | h
    · exact Or.inl (underAllN_sub m n x h)
    · exact Or.inr (underAllF_sub m rest x h)
end

mutual
theorem modifyAt_notin_elemIds_N (n : DomNode) (m nid : Nat) (f : DomForest → DomForest)
    (g1 : ∀ c, nid ∉ elemIdsF c → nid ∉ elemIdsF (f c))
    (h0 : nid ∉ elemIdsN n) : nid ∉ elemIdsN (modifyAtN n m f).1 := by
  cases n with
  | text t => simpa [modifyAtN] using h0
  | elem e c =>
    rw [modifyAtN_elem_eq]
    simp only [elemIdsN, List.mem_cons] at h0
    push_neg at h0
    by_cases hem : e.id = m
    · rw [if_pos hem]
      simp only [elemIdsN, List.mem_cons]
      push_neg
      exact ⟨h0.1, g1 c h0.2⟩
    · rw [if_neg hem]
      by_cases hflag : (modifyAtF c m f).2 = true
      · rw [if_pos hflag]
        simp only [elemIdsN, List.mem_cons]
        push_neg
        exact ⟨h0.1, modifyAt_notin_elemIds_F c m nid f g1 h0.2⟩
      · rw [if_neg hflag]
        simp only [elemIdsN, List.mem_cons]
        push_neg
        exact ⟨h0.1, h0.2⟩
  | shadowHost e sc => simpa [modifyAtN] using h0
theorem modifyAt_notin_elemIds_F (d : DomForest) (m nid : Nat) (f : DomForest → DomForest)
    (g1 : ∀ c, nid ∉ elemIdsF c → nid ∉ elemIdsF (f c))
    (h0 : nid ∉ elemIdsF d) : nid ∉ elemIdsF (modifyAtF d m f).1 := by
  cases d with
  | nil => simpa [modifyAtF] using h0
  | cons n rest =>
    rw [modifyAtF_cons_eq]
    simp only [elemIdsF, List.mem_append] at h0
    push_neg at h0
    by_cases hflag : (modifyAtN n m f).2 = true
    · rw [if_pos hflag]
      simp only [elemIdsF, List.mem_append]
      push_neg
      exact ⟨modifyAt_notin_elemIds_N n m nid f g1 h0.1, h0.2⟩
    · rw [if_neg hflag]
      simp only [elemIdsF, List.mem_append]
      push_neg
      exact ⟨h0.1, modifyAt_notin_elemIds_F rest m nid f g1 h0.2⟩
end

mutual
theorem modifyAt_find_other_N (n : DomNode) (m nid : Nat) (f : DomForest → DomForest)
    (hf : ∀ c, nid ∉ elemIdsF c → nid ∉ elemIdsF (f c))
    (hne : nid ≠ m)
    (h1 : nid ∉ underAllN m n)
    (h2 : m ∉ underAllN nid n) :
    findChildrenN (modifyAtN n m f).1 nid = findChildrenN n nid := by
  cases n with
  | text t => simp [modifyAtN]
  | elem e c =>
    rw [modifyAtN_elem_eq]
    simp only [underAllN, List.mem_append] at h1 h2
    push_neg at h1 h2
    by_cases hem : e.id = m
    · rw [if_pos hem]
      have hids : nid ∉ elemIdsF c := by
        have := h1.1
        rwa [if_pos hem] at this
      have hne2 : e.id ≠ nid := fun hcon => hne (hcon.symm.trans hem)
      simp only [findChildrenN, if_neg hne2]
      rw [(findChildrenF_none_iff c nid).mpr hids,
        (findChildrenF_none_iff (f c) nid).mpr (hf c hids)]
    · rw [if_neg hem]
      by_cases hflag : (modifyAtF c m f).2 = true
      · by_cases hen : e.id = nid
        · exfalso
          have hmemc : m ∈ elemIdsF c := modifyAtF_true_mem c m f hflag
          have := h2.1
          rw [if_pos hen] at this
          exact this hmemc
        · rw [if_pos hflag]
          simp only [findChildrenN, if_neg hen]
          exact modifyAt_find_other_F c m nid f hf hne h1.2 h2.2
      · rw [if_neg hflag]
  | shadowHost e sc => simp [modifyAtN]
theorem modifyAt_find_other_F (d : DomForest) (m nid : Nat) (f : DomForest → DomForest)
    (hf : ∀ c, nid ∉ elemIdsF c → nid ∉ elemIdsF (f c))
    (hne : nid ≠ m)
    (h1 : nid ∉ underAllF m d)
    (h2 : m ∉ underAllF nid d) :
    findChildrenF (modifyAtF d m f).1 nid = findChildrenF d nid := by
  cases d with
  | nil => simp [modifyAtF]
  | cons n rest =>
    rw [modifyAtF_cons_eq]
    simp only [underAllF, List.mem_append] at h1 h2
    push_neg at h1 h2
    by_cases hflag : (modifyAtN n m f).2 = true
    · rw [if_pos hflag]
      simp only [findChildrenF]
      rw [modifyAt_find_other_N n m nid f hf hne h1.1 h2.1]
    · rw [if_neg hflag]
      simp only [findChildrenF]
      cases hfind : findChildrenN n nid with
      | some c => rfl
      | none => exact modifyAt_find_other_F rest m nid f hf hne h1.2 h2.2
end

mutual
theorem modifyAt_underAll_N (n : DomNode) (m nid k : Nat) (f : DomForest → DomForest)
    (g1 : ∀ c, nid ∉ elemIdsF c → nid ∉ elemIdsF (f c))
    (g2 : ∀ c, nid ∉ underAllF k c → nid ∉ underAllF k (f c))
    (h0 : nid ∉ underAllN k n) :
    nid ∉ underAllN k (modifyAtN n m f).1 := by
  cases n with
  | text t => simpa [modifyAtN] using h0
  | elem e c =>
    rw [modifyAtN_elem_eq]
    simp only [underAllN, List.mem_append] at h0
    push_neg at h0
    by_cases hem : e.id = m
    · rw [if_pos hem]
      simp only [underAllN, List.mem_append]
      push_neg
      constructor
      · by_cases hek : e.id = k
        · rw [if_pos hek]
          have hids : nid ∉ elemIdsF c := by
            have := h0.1
            rwa [if_pos hek] at this
          exact g1 c hids
        · rw [if_neg hek]
          simp
      · exact g2 c h0.2
    · rw [if_neg hem]
      by_cases hflag : (modifyAtF c m f).2 = true
      · rw [if_pos hflag]
        simp only [underAllN, List.mem_append]
        push_neg
        constructor
        · by_cases hek : e.id = k
          · rw [if_pos hek]
            have hids : nid ∉ elemIdsF c := by
              have := h0.1
              rwa [if_pos hek] at this
            exact modifyAt_notin_elemIds_F c m nid f g1 hids
          · rw [if_neg hek]
            simp
        · exact modifyAt_underAll_F c m nid k f g1 g2 h0.2
      · rw [if_neg hflag]
        simp only [underAllN, List.mem_append]
        push_neg
        exact h0
  | shadowHost e sc => simpa [modifyAtN] using h0
theorem modifyAt_underAll_F (d : DomForest) (m nid k : Nat) (f : DomForest → DomForest)
    (g1 : ∀ c, nid ∉ elemIdsF c → nid ∉ elemIdsF (f c))
    (g2 : ∀ c, nid ∉ underAllF k c → nid ∉ underAllF k (f c))
    (h0 : nid ∉ underAllF k d) :
    nid ∉ underAllF k (modifyAtF d m f).1 := by
  cases d with
  | nil => simpa [modifyAtF] using h0
  | cons n rest =>
    rw [modifyAtF_cons_eq]
    simp only [underAllF, List.mem_append] at h0
    push_neg at h0
    by_cases hflag : (modifyAtN n m f).2 = true
    · rw [if_pos hflag]
      simp only [underAllF, List.mem_append]
      push_neg
      exact ⟨modifyAt_underAll_N n m nid k f g1 g2 h0.1, h0.2⟩
    · rw [if_neg hflag]
      simp only [underAllF, List.mem_append]
      push_neg
      exact ⟨h0.1, modifyAt_underAll_F rest m nid k f g1 g2 h0.2⟩
end

theorem removeFirstHostF_cons_elem_eq (hostTag : String) (e : ElemData) (c rest : DomForest) :
    removeFirstHostF hostTag (.cons (.elem e c) rest) =
      if e.tagName = hostTag then (rest, true)
      else if (removeFirstHostF hostTag c).2 = true then
        (.cons (.elem e (removeFirstHostF hostTag c).1) rest, true)
      else (.cons (.elem e c) (removeFirstHostF hostTag rest).1, (removeFirstHostF hostTag rest).2) := by
  by_cases ht : e.tagName = hostTag
  · simp [removeFirstHostF, ht]
  · simp only [removeFirstHostF, if_neg ht]
    cases hm : removeFirstHostF hostTag c with
    | mk c2 flag =>
      cases flag with
      | true => simp
      | false =>
        cases hr : removeFirstHostF hostTag rest with
        | mk rest2 rflag => simp

theorem removeFirstHostF_cons_text_eq (hostTag : String) (t : TextNode) (rest : DomForest) :
    removeFirstHostF hostTag (.cons (.text t) rest) =
      (.cons (.text t) (removeFirstHostF hostTag rest).1, (removeFirstHostF hostTag rest).2) := by
  simp only [removeFirstHostF]

theorem removeFirstHostF_cons_shadow_eq (hostTag : String) (e : ElemData) (sc rest : DomForest) :
    removeFirstHostF hostTag (.cons (.shadowHost e sc) rest) =
      (.cons (.shadowHost e sc) (removeFirstHostF hostTag rest).1, (removeFirstHostF hostTag rest).2) := by
  simp only [removeFirstHostF]

theorem removeFirstHostF_false (hostTag : String) :
    ∀ d : DomForest, (removeFirstHostF hostTag d).2 = false →
      (removeFirstHostF hostTag d).1 = d ∧ hostIdsF hostTag d = []
  | .nil, _ => ⟨rfl, rfl⟩
  | .cons (.text t) rest, h => by
    rw [removeFirstHostF_cons_text_eq] at h ⊢
    obtain ⟨h1, h2⟩ := removeFirstHostF_false hostTag rest h
    simp [hostIdsF, hostIdsN, h1, h2]
  | .cons (.shadowHost e sc) rest, h => by
    rw [removeFirstHostF_cons_shadow_eq] at h ⊢
    obtain ⟨h1, h2⟩ := removeFirstHostF_false hostTag rest h
    simp [hostIdsF, hostIdsN, h1, h2]
  | .cons (.elem e c) rest, h => by
    rw [removeFirstHostF_cons_elem_eq] at h ⊢
    by_cases ht : e.tagName = hostTag
    · rw [if_pos ht] at h
      simp at h
    · rw [if_neg ht] at h ⊢
      by_cases hflag : (removeFirstHostF hostTag c).2 = true
      · rw [if_pos hflag] at h
        simp at h
      · rw [if_neg hflag] at h ⊢
        obtain ⟨hc1, hc2⟩ := removeFirstHostF_false hostTag c (by simpa using hflag)
        obtain ⟨hr1, hr2⟩ := removeFirstHostF_false hostTag rest h
        constructor
        · simp only []
          rw [hr1]
        · simp [hostIdsF, hostIdsN, if_neg ht, hc2, hr2]

theorem removeFirstHostF_noHost (hostTag : String) :
    ∀ d : DomForest, hostIdsF hostTag d = [] → removeFirstHostF hostTag d = (d, false)
  | .nil, _ => rfl
  | .cons (.text t) rest, h => by
    rw [removeFirstHostF_cons_text_eq]
    have hr : hostIdsF hostTag rest = [] := by simpa [hostIdsF, hostIdsN] using h
    rw [removeFirstHostF_noHost hostTag rest hr]
  | .cons (.shadowHost e sc) rest, h => by
    rw [removeFirstHostF_cons_shadow_eq]
    have hr : hostIdsF hostTag rest = [] := by simpa [hostIdsF, hostIdsN] using h
    rw [removeFirstHostF_noHost hostTag rest hr]
  | .cons (.elem e c) rest, h => by
    simp only [hostIdsF, hostIdsN, List.append_eq_nil] at h
    by_cases ht : e.tagName = hostTag
    · rw [if_pos ht] at h
      exact absurd h.1 (by simp)
    · rw [if_neg ht] at h
      rw [removeFirstHostF_cons_elem_eq, if_neg ht]
      have hcr := removeFirstHostF_noHost hostTag c h.1
      have hrr := removeFirstHostF_noHost hostTag rest h.2
      rw [hcr, hrr]
      simp

theorem removeFirstHostF_elemIds_sub (hostTag : String) :
    ∀ (d : DomForest) (x : Nat), x ∈ elemIdsF (removeFirstHostF hostTag d).1 → x ∈ elemIdsF d
  | .nil, x, hx => hx
  | .cons (.text t) rest, x, hx => by
    rw [removeFirstHostF_cons_text_eq] at hx
    simp only [elemIdsF, elemIdsN, List.nil_append] at hx ⊢
    exact removeFirstHostF_elemIds_sub hostTag rest x hx
  | .cons (.shadowHost e sc) rest, x, hx => by
    rw [removeFirstHostF_cons_shadow_eq] at hx
    simp only [elemIdsF, elemIdsN, List.nil_append] at hx ⊢
    exact removeFirstHostF_elemIds_sub hostTag rest x hx
  | .cons (.elem e c) rest, x, hx => by
    rw [removeFirstHostF_cons_elem_eq] at hx
    simp only [elemIdsF, elemIdsN, List.cons_append, List.mem_cons, List.mem_append]
    by_cases ht : e.tagName = hostTag
    · rw [if_pos ht] at hx
      exact Or.inr (Or.inr hx)
    · rw [if_neg ht] at hx
      by_cases hflag : (removeFirstHostF hostTag c).2 = true
      · rw [if_pos hflag] at hx
        simp only [elemIdsF, elemIdsN, List.cons_append, List.mem_cons, List.mem_append] at hx
        rcases hx with h | h | h
        · exact Or.inl h
        · exact Or.inr (Or.inl (removeFirstHostF_elemIds_sub hostTag c x h))
        · exact Or.inr (Or.inr h)
      · rw [if_neg hflag] at hx
        simp only [elemIdsF, elemIdsN, List.cons_append, List.mem_cons, List.mem_append] at hx
        rcases hx with h | h | h
        · exact Or.inl h
        · exact Or.inr (Or.inl h)
        · exact Or.inr (Or.inr (removeFirstHostF_elemIds_sub hostTag rest x h))

theorem removeFirstHostF_underAll_sub (hostTag : String) :
    ∀ (d : DomForest) (k x : Nat), x ∈ underAllF k (removeFirstHostF hostTag d).1 →
      x ∈ underAllF k d
  | .nil, k, x, hx => hx
  | .cons (.text t) rest, k, x, hx => by
    rw [removeFirstHostF_cons_text_eq] at hx
    simp only [underAllF, underAllN, List.nil_append] at hx ⊢
    exact removeFirstHostF_underAll_sub hostTag rest k x hx
  | .cons (.shadowHost e sc) rest, k, x, hx => by
    rw [removeFirstHostF_cons_shadow_eq] at hx
    simp only [underAllF, underAllN, List.nil_append] at hx ⊢
    exact removeFirstHostF_underAll_sub hostTag rest k x hx
  | .cons (.elem e c) rest, k, x, hx => by
    rw [removeFirstHostF_cons_elem_eq] at hx
    simp only [underAllF, underAllN, List.mem_append]
    by_cases ht : e.tagName = hostTag
    · rw [if_pos ht] at hx
      exact Or.inr hx
    · rw [if_neg ht] at hx
      by_cases hflag : (removeFirstHostF hostTag c).2 = true
      · rw [if_pos hflag] at hx
        simp only [underAllF, underAllN, List.mem_append] at hx
        rcases hx with (h | h) | h
        · left
          left
          by_cases hek : e.id = k
          · rw [if_pos hek] at h ⊢
            exact removeFirstHostF_elemIds_sub hostTag c x h
          · rw [if_neg hek] at h
            exact absurd h (List.not_mem_nil x)
        · exact Or.inl (Or.inr (removeFirstHostF_underAll_sub hostTag c k x h))
        · exact Or.inr h
      · rw [if_neg hflag] at hx
        simp only [underAllF, underAllN, List.mem_append] at hx
        rcases hx with (h | h) | h
        · exact Or.inl (Or.inl h)
        · exact Or.inl (Or.inr h)
        · exact Or.inr (removeFirstHostF_underAll_sub hostTag rest k x h)

theorem removeFirstHostF_single (hostTag : String) :
    ∀ d : DomForest, (hostIdsF hostTag d).length ≤ 1 →
      hostIdsF hostTag (removeFirstHostF hostTag d).1 = []
  | .nil, _ => rfl
  | .cons (.text t) rest, h => by
    rw [removeFirstHostF_cons_text_eq]
    simp only [hostIdsF, hostIdsN, List.nil_append] at h ⊢
    exact removeFirstHostF_single hostTag rest h
  | .cons (.shadowHost e sc) rest, h => by
    rw [removeFirstHostF_cons_shadow_eq]
    simp only [hostIdsF, hostIdsN, List.nil_append] at h ⊢
    exact removeFirstHostF_single hostTag rest h
  | .cons (.elem e c) rest, h => by
    rw [removeFirstHostF_cons_elem_eq]
    by_cases ht : e.tagName = hostTag
    · rw [if_pos ht]
      simp only [hostIdsF, hostIdsN, if_pos ht, List.cons_append, List.length_cons,
        List.length_append] at h
      have : (hostIdsF hostTag rest).length = 0 := by omega
      exact List.length_eq_zero.mp this
    · rw [if_neg ht]
      simp only [hostIdsF, hostIdsN, if_neg ht, List.length_append] at h
      by_cases hflag : (removeFirstHostF hostTag c).2 = true
      · rw [if_pos hflag]
        have hcne : hostIdsF hostTag c ≠ [] := by
          intro hempty
          have := removeFirstHostF_noHost hostTag c hempty
          rw [this] at hflag
          simp at hflag
        have hclen : 1 ≤ (hostIdsF hostTag c).length := by
          rcases List.eq_nil_or_concat (hostIdsF hostTag c) with hnil | ⟨_, _, hcat⟩
          · exact absurd hnil hcne
          · rw [hcat]
            simp
        have hrest : (hostIdsF hostTag rest).length = 0 := by omega
        have hc2 := removeFirstHostF_single hostTag c (by omega)
        simp [hostIdsF, hostIdsN, if_neg ht, hc2, List.length_eq_zero.mp hrest]
      · rw [if_neg hflag]
        have hc0 := (removeFirstHostF_false hostTag c (by simpa using hflag)).2
        have hr := removeFirstHostF_single hostTag rest (by omega)
        simp [hostIdsF, hostIdsN, if_neg ht, hc0, hr]

/-- The element ids occurring in a target's captured backup (empty when
no backup was captured). -/
def backupIds (cache : TargetCache) : List Nat :=
  match cache.htmlBackup with
  | some b => elemIdsF b
  | none => []

theorem backupIds_some (cache : TargetCache) (b : DomForest)
    (hbk : cache.htmlBackup = some b) : backupIds cache = elemIdsF b := by
  simp [backupIds, hbk]

/-- Per-target precondition of one `_restoreAll` iteration: in replace
mode with a captured backup the target must still be resolvable; in all
other cases at most one host marker sits under the target. -/
abbrev restorePre (mode : DisplayMode) (hostTag : String) (d : DomForest)
    (p : Nat × TargetCache) : Prop :=
  match mode, p.2.htmlBackup with
  | .replace, some _ => (findChildrenF d p.1).isSome = true
  | _, _ => (hostsUnder hostTag d p.1).length ≤ 1

/-- Per-target postcondition of `_restoreAll`: in replace mode with a
captured backup the target's children equal the backup; otherwise no
host marker remains under the target. -/
abbrev restorePost (mode : DisplayMode) (hostTag : String) (d2 : DomForest)
    (p : Nat × TargetCache) : Prop :=
  match mode, p.2.htmlBackup with
  | .replace, some b => findChildrenF d2 p.1 = some b
  | _, _ => hostsUnder hostTag d2 p.1 = []

theorem restoreTarget_underAll (mode : DisplayMode) (hostTag : String) (d : DomForest)
    (n : Nat) (cache : TargetCache) (x k : Nat)
    (hbx : x ∉ backupIds cache)
    (h0 : x ∉ underAllF k d) : x ∉ underAllF k (restoreTarget mode hostTag d n cache) := by
  have g1 : ∀ c, x ∉ elemIdsF c → x ∉ elemIdsF (removeFirstHostF hostTag c).1 :=
    fun c hc hm => hc (removeFirstHostF_elemIds_sub hostTag c x hm)
  have g2 : ∀ c, x ∉ underAllF k c → x ∉ underAllF k (removeFirstHostF hostTag c).1 :=
    fun c hc hm => hc (removeFirstHostF_underAll_sub hostTag c k x hm)
  have h1 : x ∉ underAllF k (modifyAtF d n (fun c => (removeFirstHostF hostTag c).1)).1 :=
    modifyAt_underAll_F d n x k _ g1 g2 h0
  cases hbk : cache.htmlBackup with
  | none => cases mode <;> simpa [restoreTarget, hbk, modifyChildren] using h1
  | some b =>
    have hxb : x ∉ elemIdsF b := by simpa [backupIds, hbk] using hbx
    cases mode with
    | overlay => simpa [restoreTarget, hbk, modifyChildren] using h1
    | replace =>
      have h2 : x ∉ underAllF k
          (modifyAtF (modifyAtF d n (fun c => (removeFirstHostF hostTag c).1)).1 n
            (fun _ => b)).1 :=
        modifyAt_underAll_F _ n x k (fun _ => b) (fun _ _ => hxb)
          (fun _ _ hmem => hxb (underAllF_sub k b x hmem)) h1
      simpa [restoreTarget, hbk, modifyChildren] using h2

theorem restoreTarget_find_other (mode : DisplayMode) (hostTag : String) (d : DomForest)
    (n : Nat) (cache : TargetCache) (nid : Nat)
    (hb : nid ∉ backupIds cache) (hne : nid ≠ n)
    (h1 : nid ∉ underAllF n d) (h2 : n ∉ underAllF nid d) :
    findChildrenF (restoreTarget mode hostTag d n cache) nid = findChildrenF d nid := by
  have g1 : ∀ c, nid ∉ elemIdsF c → nid ∉ elemIdsF (removeFirstHostF hostTag c).1 :=
    fun c hc hm => hc (removeFirstHostF_elemIds_sub hostTag c nid hm)
  have hfind1 : findChildrenF (modifyAtF d n (fun c => (removeFirstHostF hostTag c).1)).1 nid
      = findChildrenF d nid :=
    modifyAt_find_other_F d n nid _ g1 hne h1 h2
  cases hbk : cache.htmlBackup with
  | none => cases mode <;> simpa [restoreTarget, hbk, modifyChildren] using hfind1
  | some b =>
    have hnb : nid ∉ elemIdsF b := by simpa [backupIds, hbk] using hb
    cases mode with
    | overlay => simpa [restoreTarget, hbk, modifyChildren] using hfind1
    | replace =>
      have h1s : nid ∉ underAllF n (modifyAtF d n (fun c => (removeFirstHostF hostTag c).1)).1 :=
        modifyAt_underAll_F d n nid n _ g1
          (fun c hc hm => hc (removeFirstHostF_underAll_sub hostTag c n nid hm)) h1
      have h2s : n ∉ underAllF nid (modifyAtF d n (fun c => (removeFirstHostF hostTag c).1)).1 :=
        modifyAt_underAll_F d n n nid _
          (fun c hc hm => hc (removeFirstHostF_elemIds_sub hostTag c n hm))
          (fun c hc hm => hc (removeFirstHostF_underAll_sub hostTag c nid n hm)) h2
      have hfind2 : findChildrenF
            (modifyAtF (modifyAtF d n (fun c => (removeFirstHostF hostTag c).1)).1 n
              (fun _ => b)).1 nid
          = findChildrenF (modifyAtF d n (fun c => (removeFirstHostF hostTag c).1)).1 nid :=
        modifyAt_find_other_F _ n nid (fun _ => b) (fun _ _ => hnb) hne h1s h2s
      simp only [restoreTarget, hbk, modifyChildren]
      rw [hfind2, hfind1]

theorem remove_step_hosts (hostTag : String) (d : DomForest) (n : Nat)
    (hpre : (hostsUnder hostTag d n).length ≤ 1) :
    hostsUnder hostTag (modifyAtF d n (fun c => (removeFirstHostF hostTag c).1)).1 n = [] := by
  have hself1 := modifyAt_find_self_F d n (fun c => (removeFirstHostF hostTag c).1)
  cases hfc : findChildrenF d n with
  | none => simp [hostsUnder, hself1, hfc]
  | some c =>
    simp only [hostsUnder, hfc] at hpre
    simp [hostsUnder, hself1, hfc, removeFirstHostF_single hostTag c hpre]

theorem restoreTarget_post (mode : DisplayMode) (hostTag : String) (d : DomForest) (n : Nat)
    (cache : TargetCache) (hpre : restorePre mode hostTag d (n, cache)) :
    restorePost mode hostTag (restoreTarget mode hostTag d n cache) (n, cache) := by
  cases hbk : cache.htmlBackup with
  | none =>
    cases mode <;>
      (simp only [restorePre, hbk] at hpre) <;>
      (simp only [restorePost, restoreTarget, hbk, modifyChildren]) <;>
      exact remove_step_hosts hostTag d n hpre
  | some b =>
    cases mode with
    | overlay =>
      simp only [restorePre, hbk] at hpre
      simp only [restorePost, restoreTarget, hbk, modifyChildren]
      exact remove_step_hosts hostTag d n hpre
    | replace =>
      simp only [restorePre, hbk] at hpre
      simp only [restorePost, restoreTarget, hbk, modifyChildren]
      have hself1 := modifyAt_find_self_F d n (fun c => (removeFirstHostF hostTag c).1)
      have hself2 := modifyAt_find_self_F
        (modifyAtF d n (fun c => (removeFirstHostF hostTag c).1)).1 n (fun _ => b)
      rw [hself2, hself1]
      obtain ⟨c, hfc⟩ := Option.isSome_iff_exists.mp hpre
      simp [hfc]

theorem restorePre_congr (mode : DisplayMode) (hostTag : String) (d d2 : DomForest)
    (p : Nat × TargetCache)
    (hf : findChildrenF d2 p.1 = findChildrenF d p.1)
    (h : restorePre mode hostTag d p) : restorePre mode hostTag d2 p := by
  cases hbk : p.2.htmlBackup with
  | none =>
    cases mode <;> (simp only [restorePre, hbk] at h ⊢) <;> simpa [hostsUnder, hf] using h
  | some b =>
    cases mode with
    | overlay =>
      simp only [restorePre, hbk] at h ⊢
      simpa [hostsUnder, hf] using h
    | replace =>
      simp only [restorePre, hbk] at h ⊢
      simpa [hf] using h

theorem restorePost_keep (mode : DisplayMode) (hostTag : String) (d2 d3 : DomForest)
    (p : Nat × TargetCache)
    (hf : findChildrenF d3 p.1 = findChildrenF d2 p.1)
    (h : restorePost mode hostTag d2 p) : restorePost mode hostTag d3 p := by
  cases hbk : p.2.htmlBackup with
  | none =>
    cases mode <;> (simp only [restorePost, hbk] at h ⊢) <;> simpa [hostsUnder, hf] using h
  | some b =>
    cases mode with
    | overlay =>
      simp only [restorePost, hbk] at h ⊢
      simpa [hostsUnder, hf] using h
    | replace =>
      simp only [restorePost, hbk] at h ⊢
      rw [hf, h]

theorem restoreAll_cons (mode : DisplayMode) (hostTag : String) (d : DomForest)
    (n : Nat) (cache : TargetCache) (tl : List (Nat × TargetCache)) :
    restoreAll mode hostTag d ((n, cache) :: tl) =
      restoreAll mode hostTag (restoreTarget mode hostTag d n cache) tl := rfl

/-- Main invariant of the `_restoreAll` loop: provided the tracked
targets have pairwise distinct ids, none is nested below another tracked
id, no captured backup mentions a tracked id, and each target satisfies
its per-target precondition, the loop leaves untouched targets
resolvable as before, preserves the nesting discipline, and establishes
every target's postcondition. -/
theorem restoreAll_spec (mode : DisplayMode) (hostTag : String) (allIds : List Nat) :
    ∀ (tm : List (Nat × TargetCache)) (d : DomForest),
      (∀ p ∈ tm, p.1 ∈ allIds) →
      (tm.map Prod.fst).Nodup →
      (∀ a ∈ allIds, ∀ k ∈ allIds, a ∉ underAllF k d) →
      (∀ p ∈ tm, ∀ a ∈ allIds, a ∉ backupIds p.2) →
      (∀ p ∈ tm, restorePre mode hostTag d p) →
      (∀ nid ∈ allIds, nid ∉ tm.map Prod.fst →
          findChildrenF (restoreAll mode hostTag d tm) nid = findChildrenF d nid) ∧
      (∀ a ∈ allIds, ∀ k ∈ allIds, a ∉ underAllF k (restoreAll mode hostTag d tm)) ∧
      (∀ p ∈ tm, restorePost mode hostTag (restoreAll mode hostTag d tm) p)
  | [], d, _, _, hpair, _, _ =>
    ⟨fun _ _ _ => rfl, hpair, fun p hp => absurd hp (List.not_mem_nil p)⟩
  | (n, cache) :: tl, d, hmem, hnd, hpair, hback, hpre => by
    have hnmem : n ∈ allIds := hmem (n, cache) (List.mem_cons_self _ _)
    have hbn : ∀ a ∈ allIds, a ∉ backupIds cache := fun a ha =>
      hback (n, cache) (List.mem_cons_self _ _) a ha
    have hnd1 : (n :: tl.map Prod.fst).Nodup := by simpa only [List.map_cons] using hnd
    have hndc := List.nodup_cons.mp hnd1
    have hpair1 : ∀ a ∈ allIds, ∀ k ∈ allIds,
        a ∉ underAllF k (restoreTarget mode hostTag d n cache) :=
      fun a ha k hk =>
        restoreTarget_underAll mode hostTag d n cache a k (hbn a ha) (hpair a ha k hk)
    have hfo : ∀ nid ∈ allIds, nid ≠ n →
        findChildrenF (restoreTarget mode hostTag d n cache) nid = findChildrenF d nid :=
      fun nid hh hne =>
        restoreTarget_find_other mode hostTag d n cache nid (hbn nid hh) hne
          (hpair nid hh n hnmem) (hpair n hnmem nid hh)
    have hpre1 : ∀ p ∈ tl, restorePre mode hostTag (restoreTarget mode hostTag d n cache) p := by
      intro p hp
      have hpm : p.1 ∈ allIds := hmem p (List.mem_cons_of_mem _ hp)
      have hne : p.1 ≠ n := by
        intro hcon
        exact hndc.1 (hcon ▸ List.mem_map_of_mem Prod.fst hp)
      exact restorePre_congr mode hostTag d _ p (hfo p.1 hpm hne)
        (hpre p (List.mem_cons_of_mem _ hp))
    obtain ⟨ihA, ihB, ihC⟩ :=
      restoreAll_spec mode hostTag allIds tl (restoreTarget mode hostTag d n cache)
        (fun p hp => hmem p (List.mem_cons_of_mem _ hp)) hndc.2 hpair1
        (fun p hp => hback p (List.mem_cons_of_mem _ hp)) hpre1
    refine ⟨?_, ?_, ?_⟩
    · intro nid hh hnin
      have hnin1 : nid ∉ n :: tl.map Prod.fst := by simpa using hnin
      have hne : nid ≠ n := fun hcon => hnin1 (hcon ▸ List.mem_cons_self _ _)
      have hnin2 : nid ∉ tl.map Prod.fst := fun hc => hnin1 (List.mem_cons_of_mem _ hc)
      rw [restoreAll_cons, ihA nid hh hnin2, hfo nid hh hne]
    · intro a ha k hk
      rw [restoreAll_cons]
      exact ihB a ha k hk
    · intro p hp
      rcases List.mem_cons.mp hp with heq | hptl
      · subst heq
        have hpost1 := restoreTarget_post mode hostTag d n cache
          (hpre (n, cache) (List.mem_cons_self _ _))
        have hfu : findChildrenF
              (restoreAll mode hostTag (restoreTarget mode hostTag d n cache) tl) n
            = findChildrenF (restoreTarget mode hostTag d n cache) n :=
          ihA n hnmem hndc.1
        rw [restoreAll_cons]
        exact restorePost_keep mode hostTag _ _ (n, cache) hfu hpost1
      · rw [restoreAll_cons]
        exact ihC p hptl

/-- **C9** (amended). `unregister` (dom-translator.ts lines 136-148)
unconditionally clears every bookkeeping structure; but `_restoreAll`
(lines 708-721) removes only the FIRST `querySelector` match of the host
tag under each target, so "removes all injected hosts" holds only under
side conditions. Amended guarantee: if the tracked targets have pairwise
distinct ids, no tracked target lies below another tracked id, no
captured backup contains a tracked id, and each target satisfies its
per-target precondition (replace mode with backup: the target is still
resolvable; otherwise: at most one host marker under the target), then
after `unregister` the state is empty and every target satisfies its
postcondition (replace mode with backup: children replaced by the
backup; otherwise: no host marker remains under the target). -/
theorem claim_C9_unregister_amended :
    (∀ (mode : DisplayMode) (hostTag : String) (st : TranslatorState) (d : DomForest),
        (unregister mode hostTag st d).1 = emptyTranslatorState) ∧
    (∀ (mode : DisplayMode) (hostTag : String) (st : TranslatorState) (d : DomForest),
        (st.targetMap.map Prod.fst).Nodup →
        (∀ a ∈ st.targetMap.map Prod.fst, ∀ k ∈ st.targetMap.map Prod.fst,
            a ∉ underAllF k d) →
        (∀ p ∈ st.targetMap, ∀ a ∈ st.targetMap.map Prod.fst, a ∉ backupIds p.2) →
        (∀ p ∈ st.targetMap, restorePre mode hostTag d p) →
        ∀ p ∈ st.targetMap, restorePost mode hostTag (unregister mode hostTag st d).2 p) := by
  constructor
  · intro mode hostTag st d
    rfl
  · intro mode hostTag st d hnd hpair hback hpre p hp
    have h := restoreAll_spec mode hostTag (st.targetMap.map Prod.fst) st.targetMap d
      (fun q hq => List.mem_map_of_mem Prod.fst hq) hnd hpair hback hpre
    exact h.2.2 p hp

def w9Backup : DomForest := .cons (exText 40 "original") .nil

def w9Cache : TargetCache :=
  { snapshot := some "snap", htmlBackup := some w9Backup, lastId := some 7 }

def w9Host : DomNode := .elem ⟨5, "x-kt-trans", [], none, "inherit", "block"⟩
  (.cons (exText 41 "translated") .nil)

def w9Dom : DomForest :=
  .cons (.elem ⟨1, "div", [], none, "inherit", "block"⟩
    (.cons (exText 42 "t") (.cons w9Host .nil))) .nil

def w9State : TranslatorState :=
  { emptyTranslatorState with rootSet := [1], targetMap := [(1, w9Cache)] }

/-- Witness for the amended C9 theorem at a concrete replace-mode
instance: a single tracked target whose children are replaced by its
captured backup, with the bookkeeping cleared. -/
theorem claim_C9_witness :
    (unregister .replace "x-kt-trans" w9State w9Dom).1 = emptyTranslatorState ∧
    findChildrenF (unregister .replace "x-kt-trans" w9State w9Dom).2 1 = some w9Backup := by
  refine ⟨claim_C9_unregister_amended.1 .replace "x-kt-trans" w9State w9Dom, ?_⟩
  have h := claim_C9_unregister_amended.2 .replace "x-kt-trans" w9State w9Dom
    (by decide) (by decide) (by decide)
    (by
      intro p hp
      have hp1 : p = (1, w9Cache) := List.mem_singleton.mp hp
      subst hp1
      show (findChildrenF w9Dom 1).isSome = true
      decide)
    (1, w9Cache)
    (List.mem_singleton.mpr rfl)
  exact h
